import Mathlib

/-
Verification development for the maker-cli repository.

Shallow embedding of:
  * `canonicalStringify` (src/utils.js) — deterministic canonical JSON encoding
    used as a vote-tally key;
  * the consensus engine (src/consensus.js): `getConsensusResultSequential`
    and `getConsensusResultParallel` (early-termination and exhaustive-batch
    sub-modes), driven by an abstract stream of worker results
    (`Nat → Option JsonValue`, with `none` modelling a "red-flagged" ballot);
  * the `RateLimiter` (src/rate-limiter.js), as a transition system over an
    explicit state with an abstract millisecond clock;
  * the CLI orchestrator's state initialisation, "smart state management"
    merge, and step-failure handling (bin/maker.js).

Modelling notes.  JavaScript numbers are modelled as `Int` (the repository's
workers exchange integer-valued JSON throughout its tests).  `JSON.parse`
applied to a canonical tally key when the engine returns is a platform
builtin; outcomes here carry the canonical key itself and the orchestrator
applies an abstract `decode` function at that boundary.  JS object
key-enumeration order (integer-like keys first, then insertion order) is
modelled as plain insertion order: the consensus decision rule reads only the
sorted vote counts, which are invariant under the enumeration order of the
tally object.
-/

namespace MakerCli

/-- JSON-like values as exchanged between the workers and the engine. -/
inductive JsonValue : Type where
  | null : JsonValue
  | undef : JsonValue
  | bool : Bool → JsonValue
  | num : Int → JsonValue
  | str : String → JsonValue
  | arr : List JsonValue → JsonValue
  | obj : List (String × JsonValue) → JsonValue

/-- Lower-case hex digit, as produced by JS string escaping. -/
def hexDigit (n : Nat) : Char :=
  if n < 10 then Char.ofNat (48 + n) else Char.ofNat (87 + n)

/-- One character of `JSON.stringify` string escaping. -/
def escapeChar (c : Char) : String :=
  if c = '"' then "\\\""
  else if c = '\\' then "\\\\"
  else if c = '\x08' then "\\b"
  else if c = '\x09' then "\\t"
  else if c = '\x0a' then "\\n"
  else if c = '\x0c' then "\\f"
  else if c = '\x0d' then "\\r"
  else if c.toNat < 32 then
    "\\u00" ++ String.singleton (hexDigit (c.toNat / 16)) ++ String.singleton (hexDigit (c.toNat % 16))
  else String.singleton c

/-- `JSON.stringify` of a string scalar. -/
def jsonQuote (s : String) : String :=
  "\"" ++ String.join (s.data.map escapeChar) ++ "\""

/-- Code-unit comparison of the default JS `sort()` comparator: lexicographic
on the character codes. -/
def charListLe : List Char → List Char → Bool
  | [], _ => true
  | _ :: _, [] => false
  | c :: cs, d :: ds =>
      if c.toNat < d.toNat then true
      else if d.toNat < c.toNat then false
      else charListLe cs ds

/-- String comparison of the default JS `sort()` comparator. -/
def strLe (s t : String) : Bool :=
  charListLe s.data t.data

/-- Key order used by `Object.keys(obj).sort()`: lexicographic on the key. -/
def keyLe (p q : String × String) : Prop := strLe p.1 q.1 = true

instance : DecidableRel keyLe := fun p q => inferInstanceAs (Decidable (strLe p.1 q.1 = true))

instance : IsTotal (String × String) keyLe := ⟨by
  suffices h : ∀ a b : List Char, charListLe a b = true ∨ charListLe b a = true by
    intro p q
    exact h p.1.data q.1.data
  intro a
  induction a with
  | nil => intro b; left; rfl
  | cons c cs ih =>
      intro b
      cases b with
      | nil => right; rfl
      | cons d ds =>
          by_cases h1 : c.toNat < d.toNat
          · left; simp [charListLe, h1]
          · by_cases h2 : d.toNat < c.toNat
            · right; simp [charListLe, h2]
            · rcases ih ds with h | h
              · left; simp [charListLe, h1, h2, h]
              · right; simp [charListLe, h1, h2, h]⟩

instance : IsTrans (String × String) keyLe := ⟨by
  suffices h : ∀ a b c : List Char,
      charListLe a b = true → charListLe b c = true → charListLe a c = true by
    intro p q r h1 h2
    exact h p.1.data q.1.data r.1.data h1 h2
  intro a
  induction a with
  | nil => intro b c _ _; rfl
  | cons x xs ih =>
      intro b c hab hbc
      cases b with
      | nil => simp [charListLe] at hab
      | cons y ys =>
          cases c with
          | nil => simp [charListLe] at hbc
          | cons z zs =>
              simp only [charListLe] at hab hbc ⊢
              split at hab
              · rename_i hxy
                split
                · rfl
                · rename_i hzx
                  split at hbc
                  · rename_i hyz; omega
                  · split at hbc
                    · exact absurd hbc (by simp)
                    · rename_i hyz hzy; omega
              · split at hab
                · exact absurd hab (by simp)
                · rename_i hxy hyx
                  split at hbc
                  · rename_i hyz
                    split
                    · rfl
                    · rename_i hzx; omega
                  · split at hbc
                    · exact absurd hbc (by simp)
                    · rename_i hyz hzy
                      split
                      · rfl
                      · split
                        · rename_i hzx; omega
                        · exact ih ys zs hab hbc⟩

/-- Render one sorted `"key":value` pair of an object encoding. -/
def renderField (p : String × String) : String :=
  "\"" ++ p.1 ++ "\":" ++ p.2

mutual

/-- `canonicalStringify` (src/utils.js): canonical JSON encoding used as the
vote-tally key.  Arrays encode their elements in original order; objects sort
their key/value pairs lexicographically by key before emitting them, so the
encoding is independent of the order the fields were emitted in. -/
def canonicalStringify : JsonValue → String
  | .null => "null"
  | .undef => "undefined"
  | .bool b => if b then "true" else "false"
  | .num n => toString n
  | .str s => jsonQuote s
  | .arr xs => "[" ++ String.intercalate "," (stringifyList xs) ++ "]"
  | .obj fs =>
      "\x7b" ++
        String.intercalate "," ((List.insertionSort keyLe (stringifyFields fs)).map renderField) ++
        "\x7d"
termination_by structural v => v

/-- Encode the elements of an array, in original order. -/
def stringifyList : List JsonValue → List String
  | [] => []
  | x :: xs => canonicalStringify x :: stringifyList xs
termination_by structural l => l

/-- Encode the values of an object's fields, keeping the keys. -/
def stringifyFields : List (String × JsonValue) → List (String × String)
  | [] => []
  | (k, v) :: fs => (k, canonicalStringify v) :: stringifyFields fs
termination_by structural l => l

end

/-! ### Consensus engine (src/consensus.js) -/

/-- The engine's configuration (src/config.js): the required winning margin
`VOTE_MARGIN_K`, the attempt ceiling `MAX_ATTEMPTS_PER_STEP`, the parallel
batch size `BATCH_SIZE`, and the two strategy switches. -/
structure Config where
  voteMarginK : Nat
  maxAttempts : Nat
  batchSize : Nat
  enableParallel : Bool
  earlyTermination : Bool
deriving DecidableEq

/-- The decided outcome of one step.  `value` is the winning canonical tally
key (the source returns `JSON.parse` of this key); the `metadata` fields are
`voteMargin`, `totalVotes` and `attempts` exactly as the source builds them. -/
structure Outcome where
  value : String
  voteMargin : Nat
  totalVotes : Nat
  attempts : Nat
deriving DecidableEq

instance {ε α : Type} [DecidableEq ε] [DecidableEq α] : DecidableEq (Except ε α) := fun a b =>
  match a, b with
  | .ok x, .ok y =>
      if h : x = y then .isTrue (congrArg Except.ok h)
      else .isFalse (fun hh => h (Except.ok.inj hh))
  | .ok _, .error _ => .isFalse (fun hh => Except.noConfusion hh)
  | .error _, .ok _ => .isFalse (fun hh => Except.noConfusion hh)
  | .error x, .error y =>
      if h : x = y then .isTrue (congrArg Except.error h)
      else .isFalse (fun hh => h (Except.error.inj hh))

/-- The vote tally `votes`: canonical key → count, in insertion order. -/
abbrev Tally := List (String × Nat)

/-- `votes[resultKey] = (votes[resultKey] || 0) + 1`. -/
def addVote : Tally → String → Tally
  | [], key => [(key, 1)]
  | (k, c) :: rest, key =>
      if k = key then (k, c + 1) :: rest else (k, c) :: addVote rest key

/-- Comparator of `Object.entries(votes).sort((a, b) => b[1] - a[1])`:
stable descending order on the vote count. -/
def byCountDesc (a b : String × Nat) : Prop := b.2 ≤ a.2

instance : DecidableRel byCountDesc := fun a b => inferInstanceAs (Decidable (b.2 ≤ a.2))

instance : IsTotal (String × Nat) byCountDesc := ⟨fun a b => Nat.le_total b.2 a.2⟩

instance : IsTrans (String × Nat) byCountDesc := ⟨fun _ _ _ h1 h2 => Nat.le_trans h2 h1⟩

/-- `sortedResults`: the tally entries sorted by count, descending (stable). -/
def sortByCountDesc (votes : Tally) : Tally :=
  List.insertionSort byCountDesc votes

/-- The decision rule applied after tallying: take the leader and runner-up
of the sorted tally (runner-up count `0` if there is no second entry) and
decide once `margin >= CONFIG.VOTE_MARGIN_K`, recording the attempt counters
at the moment of decision. -/
def checkConsensus (cfg : Config) (votes : Tally) (attempts : Nat) : Option Outcome :=
  match sortByCountDesc votes with
  | [] => none
  | leader :: rest =>
      let runnerUpVotes := match rest with
        | [] => 0
        | runnerUp :: _ => runnerUp.2
      let margin := leader.2 - runnerUpVotes
      if cfg.voteMarginK ≤ margin then
        some ⟨leader.1, margin, attempts, attempts⟩
      else
        none

/-- The "unresolved consensus" error text thrown by both strategies. -/
def exhaustMsg (cfg : Config) : String :=
  "Failed to reach consensus after " ++ toString cfg.maxAttempts ++ " attempts."

/-- The `while (attempts < CONfig.MAX_ATTEMPTS_PER_STEP)` loop of
`getConsensusResultSequential`: one worker result per iteration, flagged
(`none`) results only consume an attempt, counted results are tallied and the
decision rule is checked immediately.  The structural `fuel` bounds the number
of remaining iterations; the loop guard `attempts < maxAttempts` is re-checked
each iteration just as in the source. -/
def seqLoop (cfg : Config) (ballots : Nat → Option JsonValue) :
    Nat → Nat → Tally → Except String Outcome
  | 0, _, _ => .error (exhaustMsg cfg)
  | fuel + 1, attempts, votes =>
      if attempts < cfg.maxAttempts then
        match ballots attempts with
        | none => seqLoop cfg ballots fuel (attempts + 1) votes
        | some result =>
            let votes' := addVote votes (canonicalStringify result)
            match checkConsensus cfg votes' (attempts + 1) with
            | some out => .ok out
            | none => seqLoop cfg ballots fuel (attempts + 1) votes'
      else
        .error (exhaustMsg cfg)

/-- `getConsensusResultSequential` (src/consensus.js). -/
def getConsensusResultSequential (cfg : Config) (ballots : Nat → Option JsonValue) :
    Except String Outcome :=
  seqLoop cfg ballots cfg.maxAttempts 0 []

/-- Early-termination traversal of one parallel batch: consume `batch` results
in submission order starting at attempt index `attempts`, re-checking the
decision rule after each counted ballot; return either the decided outcome or
the attempt counter and tally after the whole batch. -/
def earlyBatch (cfg : Config) (ballots : Nat → Option JsonValue) :
    Nat → Nat → Tally → Outcome ⊕ (Nat × Tally)
  | 0, attempts, votes => .inr (attempts, votes)
  | batch + 1, attempts, votes =>
      match ballots attempts with
      | none => earlyBatch cfg ballots batch (attempts + 1) votes
      | some result =>
          let votes' := addVote votes (canonicalStringify result)
          match checkConsensus cfg votes' (attempts + 1) with
          | some out => .inl out
          | none => earlyBatch cfg ballots batch (attempts + 1) votes'

/-- Exhaustive-batch tallying: consume `batch` results (in submission order,
as `Promise.all` preserves it), tallying counted ballots without any decision
check, and return the new attempt counter and tally. -/
def tallyBatch (ballots : Nat → Option JsonValue) :
    Nat → Nat → Tally → Nat × Tally
  | 0, attempts, votes => (attempts, votes)
  | batch + 1, attempts, votes =>
      match ballots attempts with
      | none => tallyBatch ballots batch (attempts + 1) votes
      | some result => tallyBatch ballots batch (attempts + 1) (addVote votes (canonicalStringify result))

/-- The outer `while (totalAttempts < CONFIG.MAX_ATTEMPTS_PER_STEP)` loop of
`getConsensusResultParallel`: each iteration launches a batch of size
`min BATCH_SIZE remainingAttempts` and processes it in the configured
sub-mode.  The structural `fuel` bounds the iterations; with a positive batch
size it never runs out before the attempt ceiling is reached (a batch size of
`0` makes the source loop forever, modelled by the distinct error below). -/
def parLoop (cfg : Config) (ballots : Nat → Option JsonValue) :
    Nat → Nat → Tally → Except String Outcome
  | 0, totalAttempts, _ =>
      if totalAttempts < cfg.maxAttempts then
        .error "nonterminating batch loop"
      else
        .error (exhaustMsg cfg)
  | fuel + 1, totalAttempts, votes =>
      if totalAttempts < cfg.maxAttempts then
        let batchSize := min cfg.batchSize (cfg.maxAttempts - totalAttempts)
        if cfg.earlyTermination then
          match earlyBatch cfg ballots batchSize totalAttempts votes with
          | .inl out => .ok out
          | .inr (attempts', votes') => parLoop cfg ballots fuel attempts' votes'
        else
          let st := tallyBatch ballots batchSize totalAttempts votes
          match checkConsensus cfg st.2 st.1 with
          | some out => .ok out
          | none => parLoop cfg ballots fuel st.1 st.2
      else
        .error (exhaustMsg cfg)

/-- `getConsensusResultParallel` (src/consensus.js). -/
def getConsensusResultParallel (cfg : Config) (ballots : Nat → Option JsonValue) :
    Except String Outcome :=
  parLoop cfg ballots cfg.maxAttempts 0 []

/-- `getConsensusResult` (src/consensus.js): strategy dispatch on
`CONFIG.ENABLE_PARALLEL`. -/
def getConsensusResult (cfg : Config) (ballots : Nat → Option JsonValue) :
    Except String Outcome :=
  if cfg.enableParallel then
    getConsensusResultParallel cfg ballots
  else
    getConsensusResultSequential cfg ballots

/-! ### Spec-side observables of a ballot stream -/

/-- The counted (non-flagged) ballots among the first `n` worker results. -/
def countedUpTo (ballots : Nat → Option JsonValue) : Nat → List JsonValue
  | 0 => []
  | n + 1 =>
      countedUpTo ballots n ++
        (match ballots n with
         | none => []
         | some v => [v])

/-- The number of counted ballots among the first `n` attempts whose
canonical key is `k`. -/
def countKey (ballots : Nat → Option JsonValue) (n : Nat) (k : String) : Nat :=
  ((countedUpTo ballots n).map canonicalStringify).count k

/-- The highest count reached, within the first `n` attempts, by any canonical
key other than `k` (`0` if there is none). -/
def maxOther (ballots : Nat → Option JsonValue) (n : Nat) (k : String) : Nat :=
  (((countedUpTo ballots n).map canonicalStringify).filter (fun k' => k' ≠ k)).foldr
    (fun k' acc => max (countKey ballots n k') acc) 0

/-- Candidate `k` has reached the First-to-Ahead-by-K margin after the first
`n` attempts: it has at least one vote and leads every other candidate by at
least `voteMarginK`. -/
def reachesMarginAt (cfg : Config) (ballots : Nat → Option JsonValue) (n : Nat) (k : String) : Prop :=
  1 ≤ countKey ballots n k ∧ maxOther ballots n k + cfg.voteMarginK ≤ countKey ballots n k

instance (cfg : Config) (ballots : Nat → Option JsonValue) (n : Nat) (k : String) :
    Decidable (reachesMarginAt cfg ballots n k) :=
  inferInstanceAs (Decidable (_ ∧ _))

/-- The tally accumulated by the engine over the first `n` attempts. -/
def tallyUpTo (ballots : Nat → Option JsonValue) : Nat → Tally
  | 0 => []
  | n + 1 =>
      match ballots n with
      | none => tallyUpTo ballots n
      | some v => addVote (tallyUpTo ballots n) (canonicalStringify v)

/-- Substring test over character lists (used to state what an error report
mentions). -/
def listHasSub (needle : List Char) : List Char → Bool
  | [] => needle.isEmpty
  | c :: rest => needle.isPrefixOf (c :: rest) || listHasSub needle rest

/-- `strMentions needle hay`: `hay` contains `needle` as a substring. -/
def strMentions (needle hay : String) : Bool :=
  listHasSub needle.data hay.data

/-! ### CLI orchestrator (bin/maker.js) -/

/-- The orchestrator's `state`: a JS object, modelled as an insertion-ordered
association list with unique keys. -/
abbrev StateObj := List (String × JsonValue)

/-- Assign a property on a JS object: overwrite in place when the key exists,
append otherwise. -/
def objSet : StateObj → String → JsonValue → StateObj
  | [], k, v => [(k, v)]
  | (k', v') :: rest, k, v =>
      if k' = k then (k, v) :: rest else (k', v') :: objSet rest k v

/-- Spread `{ ...st, ...fs }`: each field of `fs` assigned in order. -/
def objMergeFields (st : StateObj) (fs : List (String × JsonValue)) : StateObj :=
  fs.foldl (fun acc p => objSet acc p.1 p.2) st

/-- `list.slice(-n)`: the last `n` elements. -/
def lastN (n : Nat) (l : List α) : List α :=
  l.drop (l.length - n)

/-- The initial orchestrator state:
`{ original_task: prompt, history: [] }`. -/
def initialState (prompt : String) : StateObj :=
  [("original_task", .str prompt), ("history", .arr [])]

/-- The "smart state management" merge of one step's winning value
(bin/maker.js): update the 5-element history buffer, then either spread an
object value over the state or store a primitive value under
`current_value`, writing `history` after the spread in both branches. -/
def mergeStep (state : StateObj) (value : JsonValue) : StateObj :=
  let previousHistory := match state.lookup "history" with
    | some (.arr h) => h
    | _ => []
  let updatedHistory := lastN 5 (previousHistory ++ [value])
  match value with
  | .obj fs => objSet (objMergeFields state fs) "history" (.arr updatedHistory)
  | _ => objSet (objSet state "current_value" value) "history" (.arr updatedHistory)

/-- The spinner text printed when step `i` (0-based) fails:
`Step ${i + 1} Failed: ${error.message}`. -/
def stepFailText (i : Nat) (msg : String) : String :=
  "Step " ++ toString (i + 1) ++ " Failed: " ++ msg

/-- A terminal run failure: the CLI prints the step's failure report and
calls `process.exit(1)`. -/
structure RunFailure where
  stepIndex : Nat
  report : String
deriving DecidableEq

/-- The step-execution loop of the CLI action (bin/maker.js): resolve each
instruction through the consensus engine against the worker-result stream of
that step, merge the decided value into the state, and stop the entire run at
the first step failure.  `decode` models the `JSON.parse` applied to the
winning canonical key, and `streams i` is the worker-result stream of step
`i`. -/
def runSteps (cfg : Config) (streams : Nat → Nat → Option JsonValue)
    (decode : String → JsonValue) :
    List String → Nat → StateObj → Except RunFailure StateObj
  | [], _, state => .ok state
  | _instr :: rest, i, state =>
      match getConsensusResult cfg (streams i) with
      | .ok o => runSteps cfg streams decode rest (i + 1) (mergeStep state (decode o.value))
      | .error msg => .error ⟨i, stepFailText i msg⟩

/-! ### Rate limiter (src/rate-limiter.js) -/

/-- The `RateLimiter` state plus an abstract millisecond clock (`now`) and two
history variables used only by the specification: `released` records each
admitted task with its admission timestamp, in admission order, and
`submitted` records every task ever enqueued, in submission order. -/
structure RLState where
  maxRpm : Nat
  queue : List Nat
  requestTimestamps : List Nat
  now : Nat
  released : List (Nat × Nat)
  submitted : List Nat
deriving DecidableEq

/-- `this.requestTimestamps.filter(t => now - t < 60000)`. -/
def pruneWindow (now : Nat) (ts : List Nat) : List Nat :=
  ts.filter (fun t => now - t < 60000)

/-- One iteration of the `processQueue` coordinating loop: prune the window;
if under capacity, admit the head task at the current time and start it
without waiting; otherwise sleep until the oldest window timestamp expires
(plus the 100 ms buffer).  An empty queue ends the loop. -/
def driveStep (s : RLState) : RLState :=
  match s.queue with
  | [] => s
  | id :: rest =>
      let pruned := pruneWindow s.now s.requestTimestamps
      if pruned.length < s.maxRpm then
        { s with
            queue := rest,
            requestTimestamps := pruned ++ [s.now],
            released := s.released ++ [(id, s.now)] }
      else
        let oldestCall := pruned.headD 0
        { s with
            requestTimestamps := pruned,
            now := s.now + (60000 - (s.now - oldestCall) + 100) }

/-- Events of the rate-limiter transition system: a concurrent `throttle`
submission, the passage of wall-clock time, and one coordinator iteration. -/
inductive RLEvent : Type where
  | submit (id : Nat) : RLEvent
  | advance (d : Nat) : RLEvent
  | drive : RLEvent
deriving DecidableEq

/-- Transition function: `submit` enqueues (`throttle` pushes to the queue and
returns to its caller immediately), `advance` lets the clock move forward, and
`drive` runs one coordinator iteration. -/
def rlStep (s : RLState) : RLEvent → RLState
  | .submit id => { s with queue := s.queue ++ [id], submitted := s.submitted ++ [id] }
  | .advance d => { s with now := s.now + d }
  | .drive => driveStep s

/-- The constructor state `new RateLimiter(maxRpm)` at clock time `start`. -/
def rlInit (maxRpm start : Nat) : RLState :=
  ⟨maxRpm, [], [], start, [], []⟩

/-- Run the limiter under an arbitrary schedule of submissions, clock
advances, and coordinator iterations. -/
def rlRun (maxRpm start : Nat) (evs : List RLEvent) : RLState :=
  evs.foldl rlStep (rlInit maxRpm start)

/-- The admission timestamps ever recorded, in admission order. -/
def releasedTimes (s : RLState) : List Nat :=
  s.released.map Prod.snd

/-- How many of the given admission timestamps fall inside the rolling
60-second window starting at `t0`. -/
def windowCount (t0 : Nat) (ts : List Nat) : Nat :=
  (ts.filter (fun x => decide (t0 ≤ x ∧ x < t0 + 60000))).length

/-- Inductive invariant of the rate limiter: `maxRpm` is the constructor
argument; the admission history is the current window list preceded by
timestamps that have aged out; the window list is sorted and bounded by the
clock; every rolling 60-second window holds at most `maxRpm` admissions; and
the released ids followed by the queued ids are exactly the submissions in
order. -/
def rlInv (m : Nat) (s : RLState) : Prop :=
  s.maxRpm = m ∧
  (∃ dropped, releasedTimes s = dropped ++ s.requestTimestamps ∧
      ∀ t ∈ dropped, t + 60000 ≤ s.now) ∧
  List.Pairwise (· ≤ ·) s.requestTimestamps ∧
  (∀ t ∈ s.requestTimestamps, t ≤ s.now) ∧
  (∀ t0, windowCount t0 (releasedTimes s) ≤ m) ∧
  s.released.map Prod.fst ++ s.queue = s.submitted

/-! ### Further spec-side notions -/

mutual

/-- Structural equality of JSON-representable values (spec §4.1): same
scalars, same sequence elements in the same order, and the same mapping
key/value pairs irrespective of the order the keys were emitted in,
recursively. -/
inductive StructEq : JsonValue → JsonValue → Prop where
  | null : StructEq .null .null
  | undef : StructEq .undef .undef
  | bool (b : Bool) : StructEq (.bool b) (.bool b)
  | num (n : Int) : StructEq (.num n) (.num n)
  | str (s : String) : StructEq (.str s) (.str s)
  | arr {xs ys : List JsonValue} : StructEqList xs ys → StructEq (.arr xs) (.arr ys)
  | obj {fs hs gs : List (String × JsonValue)} :
      StructEqFields fs hs → hs.Perm gs → StructEq (.obj fs) (.obj gs)

/-- Pointwise structural equality of sequences. -/
inductive StructEqList : List JsonValue → List JsonValue → Prop where
  | nil : StructEqList [] []
  | cons {x y : JsonValue} {xs ys : List JsonValue} :
      StructEq x y → StructEqList xs ys → StructEqList (x :: xs) (y :: ys)

/-- Pointwise structural equality of field lists (same keys in order,
structurally equal values). -/
inductive StructEqFields : List (String × JsonValue) → List (String × JsonValue) → Prop where
  | nil : StructEqFields [] []
  | cons {k : String} {v w : JsonValue} {fs gs : List (String × JsonValue)} :
      StructEq v w → StructEqFields fs gs → StructEqFields ((k, v) :: fs) ((k, w) :: gs)

end

/-- No repeated string in a key list. -/
def distinctKeysB : List String → Bool
  | [] => true
  | k :: rest => !rest.contains k && distinctKeysB rest

mutual

/-- Every mapping inside the value has pairwise-distinct keys (true of every
value a JS worker can produce, since JS objects cannot repeat a key). -/
def nodupKeysB : JsonValue → Bool
  | .null => true
  | .undef => true
  | .bool _ => true
  | .num _ => true
  | .str _ => true
  | .arr xs => nodupKeysListB xs
  | .obj fs => distinctKeysB (fs.map Prod.fst) && nodupKeysFieldsB fs
termination_by structural v => v

/-- `nodupKeysB` over the elements of a sequence. -/
def nodupKeysListB : List JsonValue → Bool
  | [] => true
  | x :: xs => nodupKeysB x && nodupKeysListB xs
termination_by structural l => l

/-- `nodupKeysB` over the values of a field list. -/
def nodupKeysFieldsB : List (String × JsonValue) → Bool
  | [] => true
  | (_, v) :: fs => nodupKeysB v && nodupKeysFieldsB fs
termination_by structural l => l

end

/-- The count stored in the tally under a canonical key (`0` when absent). -/
def tallyCount : Tally → String → Nat
  | [], _ => 0
  | (k, c) :: rest, key => if k = key then c else tallyCount rest key

/-- The canonical keys of a tally, in insertion order. -/
def keysOf (votes : Tally) : List String :=
  votes.map Prod.fst

/-- The value is a mapping that contains the given key. -/
def objHasKey (key : String) : JsonValue → Prop
  | .obj fs => key ∈ fs.map Prod.fst
  | _ => False

instance (key : String) (v : JsonValue) : Decidable (objHasKey key v) := by
  cases v <;> simp only [objHasKey] <;> infer_instance

/-! ## Theorems -/

/-! ### Canonical encoder: key-order invariance (C6) -/

theorem charListLe_antisymm :
    ∀ {a b : List Char}, charListLe a b = true → charListLe b a = true → a = b
  | [], [], _, _ => rfl
  | [], _ :: _, _, hba => by simp [charListLe] at hba
  | _ :: _, [], hab, _ => by simp [charListLe] at hab
  | c :: cs, d :: ds, hab, hba => by
      simp only [charListLe] at hab hba
      by_cases h1 : c.toNat < d.toNat
      · rw [if_pos h1] at hab
        rw [if_neg (by omega), if_pos h1] at hba
        exact absurd hba (by simp)
      · by_cases h2 : d.toNat < c.toNat
        · rw [if_neg h1, if_pos h2] at hab
          exact absurd hab (by simp)
        · rw [if_neg h1, if_neg h2] at hab
          rw [if_neg h2, if_neg h1] at hba
          have hcd : c = d := by
            apply Char.ext
            apply UInt32.toNat.inj
            simp only [Char.toNat] at h1 h2
            omega
          rw [hcd, charListLe_antisymm hab hba]

theorem strLe_antisymm {s t : String} (hst : strLe s t = true) (hts : strLe t s = true) :
    s = t :=
  String.ext (charListLe_antisymm hst hts)

theorem stringifyList_eq_map (xs : List JsonValue) :
    stringifyList xs = xs.map canonicalStringify := by
  induction xs with
  | nil => rfl
  | cons x xs ih => simp [stringifyList, ih]

theorem stringifyFields_eq_map (fs : List (String × JsonValue)) :
    stringifyFields fs = fs.map (fun p => (p.1, canonicalStringify p.2)) := by
  induction fs with
  | nil => rfl
  | cons p fs ih =>
      obtain ⟨k, v⟩ := p
      simp [stringifyFields, ih]

theorem distinctKeysB_iff_nodup (ks : List String) :
    distinctKeysB ks = true ↔ ks.Nodup := by
  induction ks with
  | nil => simp [distinctKeysB]
  | cons k rest ih =>
      simp only [distinctKeysB, Bool.and_eq_true, Bool.not_eq_true', List.nodup_cons]
      rw [← ih]
      constructor
      · rintro ⟨h1, h2⟩
        refine ⟨fun hm => ?_, h2⟩
        simp at h1
        exact h1 hm
      · rintro ⟨h1, h2⟩
        refine ⟨?_, h2⟩
        simpa using h1

/-- Two lists of rendered fields that are permutations of each other, both
sorted by key, with pairwise-distinct keys, are equal. -/
theorem sorted_nodup_perm_eq :
    ∀ {l₁ l₂ : List (String × String)}, l₁.Perm l₂ →
      List.Sorted keyLe l₁ → List.Sorted keyLe l₂ → (l₁.map Prod.fst).Nodup → l₁ = l₂
  | [], l₂, hp, _, _, _ => (hp.nil_eq).symm ▸ rfl
  | p :: t₁, l₂, hp, hs₁, hs₂, hnd => by
      cases l₂ with
      | nil => exact absurd hp.symm.nil_eq (by simp)
      | cons q t₂ =>
          have hpq : p = q := by
            have hpmem : p ∈ q :: t₂ := hp.mem_iff.mp (List.mem_cons_self p t₁)
            have hqmem : q ∈ p :: t₁ := hp.mem_iff.mpr (List.mem_cons_self q t₂)
            rcases List.mem_cons.mp hpmem with h | hpt₂
            · exact h
            rcases List.mem_cons.mp hqmem with h | hqt₁
            · exact h.symm
            have h1 : keyLe p q := (List.sorted_cons.mp hs₁).1 q hqt₁
            have h2 : keyLe q p := (List.sorted_cons.mp hs₂).1 p hpt₂
            have hkeys : p.1 = q.1 := strLe_antisymm h1 h2
            have : p.1 ∈ t₁.map Prod.fst := by
              rw [hkeys]
              exact List.mem_map_of_mem Prod.fst hqt₁
            exact absurd this (List.nodup_cons.mp (by simpa using hnd)).1
          subst hpq
          have ht : t₁ = t₂ :=
            sorted_nodup_perm_eq hp.cons_inv (List.sorted_cons.mp hs₁).2
              (List.sorted_cons.mp hs₂).2 (by simpa using (List.nodup_cons.mp (by simpa using hnd)).2)
          rw [ht]

mutual

theorem structEq_stringify : ∀ {a b : JsonValue}, StructEq a b → nodupKeysB a = true →
    canonicalStringify a = canonicalStringify b
  | _, _, .null, _ => rfl
  | _, _, .undef, _ => rfl
  | _, _, .bool _, _ => rfl
  | _, _, .num _, _ => rfl
  | _, _, .str _, _ => rfl
  | _, _, .arr hl, hnd => by
      have h := structEqList_stringify hl (by simpa [nodupKeysB] using hnd)
      simp only [canonicalStringify, h]
  | _, _, .obj hf hperm, hnd => by
      rename_i fs hs gs
      have hnd' := hnd
      simp only [nodupKeysB, Bool.and_eq_true] at hnd'
      have h1 : stringifyFields fs = stringifyFields hs :=
        structEqFields_stringify hf hnd'.2
      have hkeysnd : ((stringifyFields fs).map Prod.fst).Nodup := by
        rw [stringifyFields_eq_map, List.map_map]
        have : (Prod.fst ∘ fun p : String × JsonValue => (p.1, canonicalStringify p.2)) = Prod.fst := by
          funext p
          rfl
        rw [this]
        exact (distinctKeysB_iff_nodup _).mp hnd'.1
      have hp2 : (stringifyFields fs).Perm (stringifyFields gs) := by
        rw [h1, stringifyFields_eq_map, stringifyFields_eq_map]
        exact hperm.map _
      have hsorteq :
          List.insertionSort keyLe (stringifyFields fs) =
            List.insertionSort keyLe (stringifyFields gs) := by
        apply sorted_nodup_perm_eq
        · exact ((List.perm_insertionSort keyLe _).trans hp2).trans
            (List.perm_insertionSort keyLe _).symm
        · exact List.sorted_insertionSort keyLe _
        · exact List.sorted_insertionSort keyLe _
        · exact ((List.perm_insertionSort keyLe (stringifyFields fs)).map Prod.fst).nodup_iff.mpr
            hkeysnd
      simp only [canonicalStringify, hsorteq]

theorem structEqList_stringify : ∀ {xs ys : List JsonValue}, StructEqList xs ys →
    nodupKeysListB xs = true → stringifyList xs = stringifyList ys
  | _, _, .nil, _ => rfl
  | _, _, .cons hx hxs, hnd => by
      simp only [nodupKeysListB, Bool.and_eq_true] at hnd
      simp only [stringifyList, structEq_stringify hx hnd.1, structEqList_stringify hxs hnd.2]

theorem structEqFields_stringify : ∀ {fs gs : List (String × JsonValue)}, StructEqFields fs gs →
    nodupKeysFieldsB fs = true → stringifyFields fs = stringifyFields gs
  | _, _, .nil, _ => rfl
  | _, _, .cons hv hfs, hnd => by
      simp only [nodupKeysFieldsB, Bool.and_eq_true] at hnd
      simp only [stringifyFields, structEq_stringify hv hnd.1, structEqFields_stringify hfs hnd.2]

end

/-- C6: canonical-encoder key-order invariance — two structurally equal
JSON-representable values (same scalars, same sequence elements in the same
order, same mapping key/value pairs irrespective of the order the keys were
emitted in, with the pairwise-distinct keys every JS object has) produce
byte-identical `canonicalStringify` encodings, because mapping keys are
sorted lexicographically, recursively, before encoding. -/
theorem c6_canonical_key_order_invariance (a b : JsonValue) (h : StructEq a b)
    (hnd : nodupKeysB a = true) : canonicalStringify a = canonicalStringify b :=
  structEq_stringify h hnd

/-- C6 witness: `\x7bb:2,a:1\x7d` and `\x7ba:1,b:2\x7d` encode identically. -/
theorem c6_canonical_key_order_invariance_witness :
    canonicalStringify (.obj [("b", .num 2), ("a", .num 1)]) =
      canonicalStringify (.obj [("a", .num 1), ("b", .num 2)]) :=
  c6_canonical_key_order_invariance
    (.obj [("b", .num 2), ("a", .num 1)]) (.obj [("a", .num 1), ("b", .num 2)])
    (StructEq.obj
      (StructEqFields.cons (StructEq.num 2) (StructEqFields.cons (StructEq.num 1) StructEqFields.nil))
      (List.Perm.swap ("a", JsonValue.num 1) ("b", JsonValue.num 2) []))
    (by decide)

/-! ### Vote-tally bookkeeping -/

theorem addVote_tallyCount (votes : Tally) (key k : String) :
    tallyCount (addVote votes key) k =
      if k = key then tallyCount votes k + 1 else tallyCount votes k := by
  induction votes with
  | nil =>
      simp only [addVote, tallyCount]
      by_cases h : key = k
      · subst h; simp
      · rw [if_neg h, if_neg (fun hh => h hh.symm)]
  | cons p rest ih =>
      obtain ⟨k', c⟩ := p
      simp only [addVote]
      by_cases h1 : k' = key
      · rw [if_pos h1]
        subst h1
        simp only [tallyCount]
        by_cases h2 : k' = k
        · subst h2; simp
        · rw [if_neg h2, if_neg h2, if_neg (fun hh : k = k' => h2 hh.symm)]
      · rw [if_neg h1]
        simp only [tallyCount]
        by_cases h2 : k' = k
        · subst h2
          rw [if_pos rfl, if_pos rfl, if_neg (fun hh : k' = key => h1 hh)]
        · rw [if_neg h2, if_neg h2, ih]

theorem mem_keysOf_addVote {votes : Tally} {key k : String} :
    k ∈ keysOf (addVote votes key) ↔ k ∈ keysOf votes ∨ k = key := by
  induction votes with
  | nil => simp [addVote, keysOf]
  | cons p rest ih =>
      obtain ⟨k', c⟩ := p
      by_cases h : k' = key
      · subst h; simp [addVote, keysOf]; tauto
      · simp only [addVote, if_neg h, keysOf, List.map_cons, List.mem_cons] at ih ⊢
        rw [ih]
        tauto

theorem nodup_keysOf_addVote {votes : Tally} {key : String}
    (h : (keysOf votes).Nodup) : (keysOf (addVote votes key)).Nodup := by
  induction votes with
  | nil => simp [addVote, keysOf]
  | cons p rest ih =>
      obtain ⟨k', c⟩ := p
      simp only [keysOf, List.map_cons, List.nodup_cons] at h
      by_cases hk : k' = key
      · subst hk
        simpa [addVote, keysOf, List.nodup_cons] using h
      · simp only [addVote, if_neg hk, keysOf, List.map_cons, List.nodup_cons]
        refine ⟨fun hm => ?_, ih h.2⟩
        rw [show (addVote rest key).map Prod.fst = keysOf (addVote rest key) from rfl] at hm
        rcases mem_keysOf_addVote.mp hm with hm | hm
        · exact h.1 hm
        · exact hk hm

theorem addVote_pos {votes : Tally} {key : String}
    (h : ∀ p ∈ votes, 1 ≤ p.2) : ∀ p ∈ addVote votes key, 1 ≤ p.2 := by
  induction votes with
  | nil =>
      intro p hp
      simp only [addVote, List.mem_singleton] at hp
      subst hp
      exact Nat.le_refl 1
  | cons q rest ih =>
      obtain ⟨k', c⟩ := q
      intro p hp
      by_cases hk : k' = key
      · rw [addVote, if_pos hk] at hp
        rcases List.mem_cons.mp hp with hp | hp
        · subst hp
          exact Nat.le_succ_of_le (h (k', c) (List.mem_cons_self _ _))
        · exact h p (List.mem_cons_of_mem _ hp)
      · rw [addVote, if_neg hk] at hp
        rcases List.mem_cons.mp hp with hp | hp
        · subst hp
          exact h (k', c) (List.mem_cons_self _ _)
        · exact ih (fun q hq => h q (List.mem_cons_of_mem _ hq)) p hp

theorem tallyCount_of_mem {votes : Tally} {k : String} {c : Nat}
    (hnd : (keysOf votes).Nodup) (hm : (k, c) ∈ votes) : tallyCount votes k = c := by
  induction votes with
  | nil => simp at hm
  | cons p rest ih =>
      obtain ⟨k', c'⟩ := p
      simp only [keysOf, List.map_cons, List.nodup_cons] at hnd
      rcases List.mem_cons.mp hm with hm | hm
      · injection hm with h1 h2
        subst h1; subst h2
        simp [tallyCount]
      · by_cases hk : k' = k
        · subst hk
          exact absurd (List.mem_map_of_mem Prod.fst hm) hnd.1
        · simp only [tallyCount, if_neg hk]
          exact ih hnd.2 hm

theorem one_le_tallyCount_iff {votes : Tally} {k : String}
    (hpos : ∀ p ∈ votes, 1 ≤ p.2) : 1 ≤ tallyCount votes k ↔ k ∈ keysOf votes := by
  induction votes with
  | nil => simp [tallyCount, keysOf]
  | cons p rest ih =>
      obtain ⟨k', c⟩ := p
      simp only [tallyCount, keysOf, List.map_cons, List.mem_cons]
      by_cases hk : k' = k
      · subst hk
        rw [if_pos rfl]
        have hc := hpos (k', c) (List.mem_cons_self _ _)
        simp only at hc
        exact ⟨fun _ => Or.inl rfl, fun _ => hc⟩
      · rw [if_neg hk]
        rw [ih (fun q hq => hpos q (List.mem_cons_of_mem _ hq))]
        constructor
        · exact fun h => Or.inr h
        · rintro (h | h)
          · exact absurd h.symm hk
          · exact h

theorem mem_keysOf_exists {votes : Tally} {k : String} (h : k ∈ keysOf votes) :
    ∃ c, (k, c) ∈ votes := by
  simp only [keysOf, List.mem_map] at h
  obtain ⟨⟨k', c⟩, hm, hk⟩ := h
  simp only at hk
  subst hk
  exact ⟨c, hm⟩

/-! ### The tally accumulated over a ballot stream -/

theorem tallyUpTo_succ_none {s : Nat → Option JsonValue} {n : Nat} (h : s n = none) :
    tallyUpTo s (n + 1) = tallyUpTo s n := by
  simp [tallyUpTo, h]

theorem tallyUpTo_succ_some {s : Nat → Option JsonValue} {n : Nat} {v : JsonValue}
    (h : s n = some v) :
    tallyUpTo s (n + 1) = addVote (tallyUpTo s n) (canonicalStringify v) := by
  simp [tallyUpTo, h]

theorem tallyUpTo_nodup (s : Nat → Option JsonValue) (n : Nat) :
    (keysOf (tallyUpTo s n)).Nodup := by
  induction n with
  | zero => simp [tallyUpTo, keysOf]
  | succ n ih =>
      cases h : s n with
      | none => rw [tallyUpTo_succ_none h]; exact ih
      | some v => rw [tallyUpTo_succ_some h]; exact nodup_keysOf_addVote ih

theorem tallyUpTo_pos (s : Nat → Option JsonValue) (n : Nat) :
    ∀ p ∈ tallyUpTo s n, 1 ≤ p.2 := by
  induction n with
  | zero => simp [tallyUpTo]
  | succ n ih =>
      cases h : s n with
      | none => rw [tallyUpTo_succ_none h]; exact ih
      | some v => rw [tallyUpTo_succ_some h]; exact addVote_pos ih

theorem countedUpTo_succ_none {s : Nat → Option JsonValue} {n : Nat} (h : s n = none) :
    countedUpTo s (n + 1) = countedUpTo s n := by
  simp [countedUpTo, h]

theorem countedUpTo_succ_some {s : Nat → Option JsonValue} {n : Nat} {v : JsonValue}
    (h : s n = some v) :
    countedUpTo s (n + 1) = countedUpTo s n ++ [v] := by
  simp [countedUpTo, h]

theorem countKey_succ (s : Nat → Option JsonValue) (n : Nat) (k : String) :
    countKey s (n + 1) k =
      countKey s n k +
        (match s n with
         | none => 0
         | some v => if canonicalStringify v = k then 1 else 0) := by
  cases h : s n with
  | none => simp [countKey, countedUpTo_succ_none h]
  | some v =>
      simp only [countKey, countedUpTo_succ_some h, List.map_append, List.count_append,
        List.map_cons, List.map_nil]
      congr 1
      by_cases hv : canonicalStringify v = k
      · simp [hv, List.count_singleton]
      · simp [List.count_singleton, hv, List.count_eq_zero]

theorem tallyUpTo_tallyCount (s : Nat → Option JsonValue) (n : Nat) (k : String) :
    tallyCount (tallyUpTo s n) k = countKey s n k := by
  induction n with
  | zero => simp [tallyUpTo, tallyCount, countKey, countedUpTo]
  | succ n ih =>
      rw [countKey_succ]
      cases h : s n with
      | none => rw [tallyUpTo_succ_none h]; simpa using ih
      | some v =>
          rw [tallyUpTo_succ_some h, addVote_tallyCount]
          by_cases hv : canonicalStringify v = k
          · simp [hv, ih]
          · have hv' : ¬k = canonicalStringify v := fun hh => hv hh.symm
            simp [hv, hv', ih]

theorem mem_countedUpTo {s : Nat → Option JsonValue} {n : Nat} {v : JsonValue} :
    v ∈ countedUpTo s n ↔ ∃ i, i < n ∧ s i = some v := by
  induction n with
  | zero => simp [countedUpTo]
  | succ n ih =>
      cases h : s n with
      | none =>
          rw [countedUpTo_succ_none h, ih]
          constructor
          · rintro ⟨i, hi, hs⟩; exact ⟨i, Nat.lt_succ_of_lt hi, hs⟩
          · rintro ⟨i, hi, hs⟩
            rcases Nat.lt_succ_iff_lt_or_eq.mp hi with hi | rfl
            · exact ⟨i, hi, hs⟩
            · rw [h] at hs; exact absurd hs (by simp)
      | some w =>
          rw [countedUpTo_succ_some h]
          simp only [List.mem_append, List.mem_singleton, ih]
          constructor
          · rintro (⟨i, hi, hs⟩ | rfl)
            · exact ⟨i, Nat.lt_succ_of_lt hi, hs⟩
            · exact ⟨n, Nat.lt_succ_self n, h⟩
          · rintro ⟨i, hi, hs⟩
            rcases Nat.lt_succ_iff_lt_or_eq.mp hi with hi | rfl
            · exact Or.inl ⟨i, hi, hs⟩
            · rw [h] at hs
              exact Or.inr (Option.some.inj hs).symm

theorem one_le_countKey_iff {s : Nat → Option JsonValue} {n : Nat} {k : String} :
    1 ≤ countKey s n k ↔ k ∈ (countedUpTo s n).map canonicalStringify := by
  rw [countKey, show (1 ≤ List.count k ((countedUpTo s n).map canonicalStringify)) ↔
    0 < List.count k ((countedUpTo s n).map canonicalStringify) from Iff.rfl]
  exact List.count_pos_iff

/-! ### The highest competing count -/

theorem le_foldr_max {L : List String} {f : String → Nat} {x : String} (hx : x ∈ L) :
    f x ≤ L.foldr (fun y acc => max (f y) acc) 0 := by
  induction L with
  | nil => simp at hx
  | cons y ys ih =>
      rcases List.mem_cons.mp hx with rfl | hx
      · exact le_max_left _ _
      · exact le_trans (ih hx) (le_max_right _ _)

theorem foldr_max_le {L : List String} {f : String → Nat} {B : Nat}
    (h : ∀ x ∈ L, f x ≤ B) : L.foldr (fun y acc => max (f y) acc) 0 ≤ B := by
  induction L with
  | nil => simp
  | cons y ys ih =>
      simp only [List.foldr_cons, max_le_iff]
      exact ⟨h y (List.mem_cons_self _ _), ih fun x hx => h x (List.mem_cons_of_mem _ hx)⟩

theorem countKey_le_maxOther {s : Nat → Option JsonValue} {n : Nat} {k k' : String}
    (hne : k' ≠ k) (hpos : 1 ≤ countKey s n k') : countKey s n k' ≤ maxOther s n k := by
  unfold maxOther
  apply le_foldr_max
  simp only [List.mem_filter, decide_eq_true_eq]
  exact ⟨one_le_countKey_iff.mp hpos, hne⟩

theorem maxOther_le {s : Nat → Option JsonValue} {n : Nat} {k : String} {B : Nat}
    (h : ∀ k', k' ≠ k → countKey s n k' ≤ B) : maxOther s n k ≤ B := by
  unfold maxOther
  apply foldr_max_le
  intro x hx
  simp only [List.mem_filter, decide_eq_true_eq] at hx
  exact h x hx.2

/-! ### The decision rule -/

theorem sortByCountDesc_perm (votes : Tally) : (sortByCountDesc votes).Perm votes :=
  List.perm_insertionSort byCountDesc votes

theorem sortByCountDesc_sorted (votes : Tally) : List.Sorted byCountDesc (sortByCountDesc votes) :=
  List.sorted_insertionSort byCountDesc votes

theorem checkConsensus_nil_eq {cfg : Config} {votes : Tally} {m : Nat}
    (hs : sortByCountDesc votes = []) : checkConsensus cfg votes m = none := by
  unfold checkConsensus
  rw [hs]

theorem checkConsensus_single {cfg : Config} {votes : Tally} {m : Nat} {lk : String} {lc : Nat}
    (hs : sortByCountDesc votes = [(lk, lc)]) :
    checkConsensus cfg votes m =
      if cfg.voteMarginK ≤ lc then some ⟨lk, lc, m, m⟩ else none := by
  unfold checkConsensus
  rw [hs]
  rfl

theorem checkConsensus_two {cfg : Config} {votes : Tally} {m : Nat} {lk rk : String}
    {lc rc : Nat} {rest : Tally}
    (hs : sortByCountDesc votes = (lk, lc) :: (rk, rc) :: rest) :
    checkConsensus cfg votes m =
      if cfg.voteMarginK ≤ lc - rc then some ⟨lk, lc - rc, m, m⟩ else none := by
  unfold checkConsensus
  rw [hs]

theorem checkConsensus_attempts {cfg : Config} {votes : Tally} {m m' : Nat} {o : Outcome}
    (h : checkConsensus cfg votes m = some o) :
    checkConsensus cfg votes m' = some ⟨o.value, o.voteMargin, m', m'⟩ := by
  cases hs : sortByCountDesc votes with
  | nil => rw [checkConsensus_nil_eq hs] at h; exact absurd h (by simp)
  | cons leader rest =>
      obtain ⟨lk, lc⟩ := leader
      cases rest with
      | nil =>
          rw [checkConsensus_single hs] at h
          rw [checkConsensus_single hs]
          split at h
          · rename_i hcond
            rw [if_pos hcond]
            injection h with h
            subst h
            rfl
          · exact absurd h (by simp)
      | cons r rest' =>
          obtain ⟨rk, rc⟩ := r
          rw [checkConsensus_two hs] at h
          rw [checkConsensus_two hs]
          split at h
          · rename_i hcond
            rw [if_pos hcond]
            injection h with h
            subst h
            rfl
          · exact absurd h (by simp)

theorem checkConsensus_none_congr {cfg : Config} {votes : Tally} {m m' : Nat}
    (h : checkConsensus cfg votes m = none) : checkConsensus cfg votes m' = none := by
  cases hs : sortByCountDesc votes with
  | nil => exact checkConsensus_nil_eq hs
  | cons leader rest =>
      obtain ⟨lk, lc⟩ := leader
      cases rest with
      | nil =>
          rw [checkConsensus_single hs] at h
          rw [checkConsensus_single hs]
          split at h
          · exact absurd h (by simp)
          · rename_i hcond; rw [if_neg hcond]
      | cons r rest' =>
          obtain ⟨rk, rc⟩ := r
          rw [checkConsensus_two hs] at h
          rw [checkConsensus_two hs]
          split at h
          · exact absurd h (by simp)
          · rename_i hcond; rw [if_neg hcond]

/-- What a successful decision check says about the stream: the decided key
has at least one vote, its margin over the best competitor is the recorded
one and is at least `K`, and the attempt counters are the ones just passed. -/
theorem checkConsensus_some_spec {cfg : Config} {s : Nat → Option JsonValue} {n m : Nat}
    {o : Outcome} (h : checkConsensus cfg (tallyUpTo s n) m = some o) :
    o.attempts = m ∧ o.totalVotes = m ∧ cfg.voteMarginK ≤ o.voteMargin ∧
      countKey s n o.value = maxOther s n o.value + o.voteMargin ∧
      1 ≤ countKey s n o.value := by
  have hnodupT : (keysOf (tallyUpTo s n)).Nodup := tallyUpTo_nodup s n
  have hposT : ∀ p ∈ tallyUpTo s n, 1 ≤ p.2 := tallyUpTo_pos s n
  cases hs : sortByCountDesc (tallyUpTo s n) with
  | nil => rw [checkConsensus_nil_eq hs] at h; exact absurd h (by simp)
  | cons leader rest =>
      obtain ⟨lk, lc⟩ := leader
      have hperm : ((lk, lc) :: rest).Perm (tallyUpTo s n) :=
        hs ▸ sortByCountDesc_perm (tallyUpTo s n)
      have hsorted : List.Sorted byCountDesc ((lk, lc) :: rest) :=
        hs ▸ sortByCountDesc_sorted (tallyUpTo s n)
      have hmemL : (lk, lc) ∈ tallyUpTo s n := hperm.mem_iff.mp (List.mem_cons_self _ _)
      have hcountL : countKey s n lk = lc := by
        rw [← tallyUpTo_tallyCount]
        exact tallyCount_of_mem hnodupT hmemL
      have hposL : 1 ≤ lc := hposT _ hmemL
      have hnodupS : ((((lk, lc) :: rest).map Prod.fst)).Nodup :=
        (hperm.map Prod.fst).nodup_iff.mpr hnodupT
      cases rest with
      | nil =>
          rw [checkConsensus_single hs] at h
          split at h
          · rename_i hcond
            injection h with h
            subst h
            have hmax : maxOther s n lk = 0 := by
              refine Nat.le_antisymm (maxOther_le ?_) (Nat.zero_le _)
              intro k' hne
              by_contra hgt
              have h1 : 1 ≤ countKey s n k' := by omega
              have hmem : k' ∈ keysOf (tallyUpTo s n) := by
                apply (one_le_tallyCount_iff hposT).mp
                rwa [tallyUpTo_tallyCount]
              obtain ⟨c, hc⟩ := mem_keysOf_exists hmem
              have := hperm.mem_iff.mpr hc
              simp only [List.mem_singleton] at this
              injection this with h1' _
              exact hne h1'
            refine ⟨rfl, rfl, hcond, ?_, ?_⟩
            · show countKey s n lk = maxOther s n lk + lc
              rw [hcountL, hmax]
              omega
            · show 1 ≤ countKey s n lk
              omega
          · exact absurd h (by simp)
      | cons r rest' =>
          obtain ⟨rk, rc⟩ := r
          have hmemR : (rk, rc) ∈ tallyUpTo s n :=
            hperm.mem_iff.mp (List.mem_cons_of_mem _ (List.mem_cons_self _ _))
          have hrkne : rk ≠ lk := by
            intro hEq
            subst hEq
            simp only [List.map_cons, List.nodup_cons, List.mem_cons, List.mem_map] at hnodupS
            exact hnodupS.1 (Or.inl trivial)
          have hcountR : countKey s n rk = rc := by
            rw [← tallyUpTo_tallyCount]
            exact tallyCount_of_mem hnodupT hmemR
          have hposR : 1 ≤ rc := hposT _ hmemR
          have hrl : rc ≤ lc := by
            have := (List.sorted_cons.mp hsorted).1 (rk, rc) (List.mem_cons_self _ _)
            simpa [byCountDesc] using this
          have hmaxGe : rc ≤ maxOther s n lk := by
            rw [← hcountR]
            exact countKey_le_maxOther hrkne (by rwa [hcountR])
          have hmaxLe : maxOther s n lk ≤ rc := by
            apply maxOther_le
            intro k' hne
            by_cases h0 : 1 ≤ countKey s n k'
            · have hmem : k' ∈ keysOf (tallyUpTo s n) := by
                apply (one_le_tallyCount_iff hposT).mp
                rwa [tallyUpTo_tallyCount]
              obtain ⟨c, hc⟩ := mem_keysOf_exists hmem
              have hcc : countKey s n k' = c := by
                rw [← tallyUpTo_tallyCount]
                exact tallyCount_of_mem hnodupT hc
              have hmem2 := hperm.mem_iff.mpr hc
              rcases List.mem_cons.mp hmem2 with hEq | hmem3
              · injection hEq with h1 _
                exact absurd h1 hne
              · have hsorted2 : List.Sorted byCountDesc ((rk, rc) :: rest') :=
                  (List.sorted_cons.mp hsorted).2
                rcases List.mem_cons.mp hmem3 with hEq | hmem4
                · injection hEq with _ h2
                  omega
                · have := (List.sorted_cons.mp hsorted2).1 (k', c) hmem4
                  simp only [byCountDesc] at this
                  omega
            · omega
          have hmax : maxOther s n lk = rc := le_antisymm hmaxLe hmaxGe
          rw [checkConsensus_two hs] at h
          split at h
          · rename_i hcond
            injection h with h
            subst h
            refine ⟨rfl, rfl, hcond, ?_, ?_⟩
            · show countKey s n lk = maxOther s n lk + (lc - rc)
              rw [hcountL, hmax]
              omega
            · show 1 ≤ countKey s n lk
              omega
          · exact absurd h (by simp)

/-- If some candidate has reached the margin over the first `n` attempts, the
decision check on the accumulated tally fires. -/
theorem checkConsensus_fires {cfg : Config} {s : Nat → Option JsonValue} {n : Nat} {k : String}
    (hreach : reachesMarginAt cfg s n k) (m : Nat) :
    checkConsensus cfg (tallyUpTo s n) m ≠ none := by
  obtain ⟨hpos, hlead⟩ := hreach
  have hnodupT : (keysOf (tallyUpTo s n)).Nodup := tallyUpTo_nodup s n
  have hposT : ∀ p ∈ tallyUpTo s n, 1 ≤ p.2 := tallyUpTo_pos s n
  have hkT : k ∈ keysOf (tallyUpTo s n) := by
    apply (one_le_tallyCount_iff hposT).mp
    rwa [tallyUpTo_tallyCount]
  cases hs : sortByCountDesc (tallyUpTo s n) with
  | nil =>
      have hT : [] = tallyUpTo s n := (hs ▸ sortByCountDesc_perm (tallyUpTo s n)).nil_eq
      rw [← hT] at hkT
      simp [keysOf] at hkT
  | cons leader rest =>
      obtain ⟨lk, lc⟩ := leader
      have hperm : ((lk, lc) :: rest).Perm (tallyUpTo s n) :=
        hs ▸ sortByCountDesc_perm (tallyUpTo s n)
      have hsorted : List.Sorted byCountDesc ((lk, lc) :: rest) :=
        hs ▸ sortByCountDesc_sorted (tallyUpTo s n)
      have hmemL : (lk, lc) ∈ tallyUpTo s n := hperm.mem_iff.mp (List.mem_cons_self _ _)
      have hcountL : countKey s n lk = lc := by
        rw [← tallyUpTo_tallyCount]
        exact tallyCount_of_mem hnodupT hmemL
      have hnodupS : ((((lk, lc) :: rest).map Prod.fst)).Nodup :=
        (hperm.map Prod.fst).nodup_iff.mpr hnodupT
      cases rest with
      | nil =>
          rw [checkConsensus_single hs]
          have hkeq : k = lk := by
            obtain ⟨c, hc⟩ := mem_keysOf_exists hkT
            have := hperm.mem_iff.mpr hc
            simp only [List.mem_singleton, Prod.mk.injEq] at this
            exact this.1
          subst hkeq
          have hcond : cfg.voteMarginK ≤ lc := by
            rw [hcountL] at hlead
            omega
          rw [if_pos hcond]
          simp
      | cons r rest' =>
          obtain ⟨rk, rc⟩ := r
          rw [checkConsensus_two hs]
          have hrkne : rk ≠ lk := by
            intro hEq
            subst hEq
            simp only [List.map_cons, List.nodup_cons, List.mem_cons, List.mem_map] at hnodupS
            exact hnodupS.1 (Or.inl trivial)
          have hmemR : (rk, rc) ∈ tallyUpTo s n :=
            hperm.mem_iff.mp (List.mem_cons_of_mem _ (List.mem_cons_self _ _))
          have hcountR : countKey s n rk = rc := by
            rw [← tallyUpTo_tallyCount]
            exact tallyCount_of_mem hnodupT hmemR
          have hposR : 1 ≤ rc := hposT _ hmemR
          by_cases hkl : k = lk
          · subst hkl
            have h1 : rc ≤ maxOther s n k := by
              rw [← hcountR]
              exact countKey_le_maxOther hrkne (by rwa [hcountR])
            have hcond : cfg.voteMarginK ≤ lc - rc := by
              rw [hcountL] at hlead
              omega
            rw [if_pos hcond]
            simp
          · have h2 : lc ≤ maxOther s n k := by
              rw [← hcountL]
              exact countKey_le_maxOther (fun hh => hkl hh.symm) (by rw [hcountL]; exact hposT _ hmemL)
            have h3 : countKey s n k ≤ lc := by
              obtain ⟨c, hc⟩ := mem_keysOf_exists hkT
              have hcc : countKey s n k = c := by
                rw [← tallyUpTo_tallyCount]
                exact tallyCount_of_mem hnodupT hc
              have hmem2 := hperm.mem_iff.mpr hc
              rcases List.mem_cons.mp hmem2 with hEq | hmem3
              · injection hEq with h1' _
                exact absurd h1' hkl
              · have := (List.sorted_cons.mp hsorted).1 (k, c) hmem3
                simp only [byCountDesc] at this
                omega
            have hK0 : cfg.voteMarginK = 0 := by omega
            rw [hK0, if_pos (Nat.zero_le _)]
            simp

/-! ### The sequential engine run, characterised -/

theorem checkConsensus_tallyZero (cfg : Config) (s : Nat → Option JsonValue) (m : Nat) :
    checkConsensus cfg (tallyUpTo s 0) m = none := rfl

theorem seqLoop_succ (cfg : Config) (s : Nat → Option JsonValue) (fuel m : Nat) (votes : Tally) :
    seqLoop cfg s (fuel + 1) m votes =
      if m < cfg.maxAttempts then
        match s m with
        | none => seqLoop cfg s fuel (m + 1) votes
        | some result =>
            match checkConsensus cfg (addVote votes (canonicalStringify result)) (m + 1) with
            | some out => .ok out
            | none => seqLoop cfg s fuel (m + 1) (addVote votes (canonicalStringify result))
      else .error (exhaustMsg cfg) := rfl

/-- A run of the sequential voting loop starting after attempt `m`, on a tally
whose decision check does not yet fire, succeeds with outcome `o` exactly when
some later attempt `n` within both the remaining fuel and the ceiling is the
first at which the decision check fires, and fires with `o`. -/
theorem seqLoop_ok_iff (cfg : Config) (s : Nat → Option JsonValue) :
    ∀ (fuel m : Nat) (o : Outcome),
      checkConsensus cfg (tallyUpTo s m) m = none →
      (seqLoop cfg s fuel m (tallyUpTo s m) = .ok o ↔
        ∃ n, m < n ∧ n ≤ m + fuel ∧ n ≤ cfg.maxAttempts ∧
          checkConsensus cfg (tallyUpTo s n) n = some o ∧
          ∀ j, m < j → j < n → checkConsensus cfg (tallyUpTo s j) j = none) := by
  intro fuel
  induction fuel with
  | zero =>
      intro m o _
      simp only [seqLoop]
      constructor
      · intro h; exact absurd h (by simp)
      · rintro ⟨n, h1, h2, _, _, _⟩; omega
  | succ fuel ih =>
      intro m o hnone
      by_cases hm : m < cfg.maxAttempts
      · cases hb : s m with
        | none =>
            have htl : tallyUpTo s (m + 1) = tallyUpTo s m := tallyUpTo_succ_none hb
            simp only [seqLoop_succ, if_pos hm, hb]
            rw [show tallyUpTo s m = tallyUpTo s (m + 1) from htl.symm]
            rw [ih (m + 1) o (by rw [htl]; exact checkConsensus_none_congr hnone)]
            constructor
            · rintro ⟨n, h1, h2, h3, h4, h5⟩
              refine ⟨n, by omega, by omega, h3, h4, ?_⟩
              intro j hj1 hj2
              by_cases hje : j = m + 1
              · subst hje
                rw [htl]
                exact checkConsensus_none_congr hnone
              · exact h5 j (by omega) hj2
            · rintro ⟨n, h1, h2, h3, h4, h5⟩
              have hn : n ≠ m + 1 := by
                intro hEq
                subst hEq
                rw [htl] at h4
                rw [checkConsensus_none_congr hnone] at h4
                exact absurd h4 (by simp)
              exact ⟨n, by omega, by omega, h3, h4, fun j hj1 hj2 => h5 j (by omega) hj2⟩
        | some v =>
            have htl : tallyUpTo s (m + 1) = addVote (tallyUpTo s m) (canonicalStringify v) :=
              tallyUpTo_succ_some hb
            simp only [seqLoop_succ, if_pos hm, hb]
            rw [← htl]
            cases hc : checkConsensus cfg (tallyUpTo s (m + 1)) (m + 1) with
            | some out =>
                change Except.ok out = Except.ok o ↔ _
                constructor
                · intro h
                  injection h with h
                  subst h
                  exact ⟨m + 1, by omega, by omega, by omega, hc, fun j hj1 hj2 => by omega⟩
                · rintro ⟨n, h1, h2, h3, h4, h5⟩
                  by_cases hne : n = m + 1
                  · subst hne
                    rw [hc] at h4
                    injection h4 with h4
                    rw [h4]
                  · have := h5 (m + 1) (by omega) (by omega)
                    rw [hc] at this
                    exact absurd this (by simp)
            | none =>
                change seqLoop cfg s fuel (m + 1) (tallyUpTo s (m + 1)) = Except.ok o ↔ _
                rw [ih (m + 1) o hc]
                constructor
                · rintro ⟨n, h1, h2, h3, h4, h5⟩
                  refine ⟨n, by omega, by omega, h3, h4, ?_⟩
                  intro j hj1 hj2
                  by_cases hje : j = m + 1
                  · subst hje
                    exact checkConsensus_none_congr hc
                  · exact h5 j (by omega) hj2
                · rintro ⟨n, h1, h2, h3, h4, h5⟩
                  have hn : n ≠ m + 1 := by
                    intro hEq
                    subst hEq
                    rw [hc] at h4
                    exact absurd h4 (by simp)
                  exact ⟨n, by omega, by omega, h3, h4, fun j hj1 hj2 => h5 j (by omega) hj2⟩
      · simp only [seqLoop_succ, if_neg hm]
        constructor
        · intro h; exact absurd h (by simp)
        · rintro ⟨n, h1, h2, h3, _, _⟩; omega

/-- The sequential engine decides with outcome `o` exactly when some attempt
`n` within the ceiling is the first at which the decision check fires, and it
fires with `o`. -/
theorem getSeq_ok_iff (cfg : Config) (s : Nat → Option JsonValue) (o : Outcome) :
    getConsensusResultSequential cfg s = .ok o ↔
      ∃ n, 0 < n ∧ n ≤ cfg.maxAttempts ∧
        checkConsensus cfg (tallyUpTo s n) n = some o ∧
        ∀ j, 0 < j → j < n → checkConsensus cfg (tallyUpTo s j) j = none := by
  have h := seqLoop_ok_iff cfg s cfg.maxAttempts 0 o (checkConsensus_tallyZero cfg s 0)
  rw [show (tallyUpTo s 0) = [] from rfl] at h
  rw [getConsensusResultSequential, h]
  constructor
  · rintro ⟨n, h1, h2, h3, h4, h5⟩
    exact ⟨n, h1, h3, h4, h5⟩
  · rintro ⟨n, h1, h2, h3, h4⟩
    exact ⟨n, h1, by omega, h2, h3, h4⟩

theorem seqLoop_total (cfg : Config) (s : Nat → Option JsonValue) :
    ∀ (fuel m : Nat) (votes : Tally),
      (∃ o, seqLoop cfg s fuel m votes = .ok o) ∨
        seqLoop cfg s fuel m votes = .error (exhaustMsg cfg) := by
  intro fuel
  induction fuel with
  | zero => intro m votes; right; rfl
  | succ fuel ih =>
      intro m votes
      by_cases hm : m < cfg.maxAttempts
      · cases hb : s m with
        | none =>
            simp only [seqLoop_succ, if_pos hm, hb]
            exact ih (m + 1) votes
        | some v =>
            simp only [seqLoop_succ, if_pos hm, hb]
            cases hc : checkConsensus cfg (addVote votes (canonicalStringify v)) (m + 1) with
            | some out =>
                left
                exact ⟨out, rfl⟩
            | none =>
                exact ih (m + 1) _
      · simp only [seqLoop_succ, if_neg hm]
        right
        trivial

/-- The sequential engine only ever throws the "unresolved consensus" error. -/
theorem getSeq_error_msg (cfg : Config) (s : Nat → Option JsonValue) (msg : String)
    (h : getConsensusResultSequential cfg s = .error msg) : msg = exhaustMsg cfg := by
  rcases seqLoop_total cfg s cfg.maxAttempts 0 [] with ⟨o, ho⟩ | ho
  · rw [getConsensusResultSequential] at h
    rw [ho] at h
    exact absurd h (by simp)
  · rw [getConsensusResultSequential] at h
    rw [ho] at h
    injection h with h
    exact h.symm

/-! ### Margin-rule helpers -/

theorem countKey_zero (s : Nat → Option JsonValue) (k : String) : countKey s 0 k = 0 := rfl

theorem reach_key_mem {cfg : Config} {s : Nat → Option JsonValue} {n : Nat} {k : String}
    (h : reachesMarginAt cfg s n k) : k ∈ (countedUpTo s n).map canonicalStringify :=
  one_le_countKey_iff.mp h.1

theorem countedUpTo_keys_sub {s : Nat → Option JsonValue} {P : String → Prop}
    (h : ∀ i v, s i = some v → P (canonicalStringify v)) :
    ∀ n, ∀ x ∈ (countedUpTo s n).map canonicalStringify, P x := by
  intro n x hx
  simp only [List.mem_map] at hx
  obtain ⟨v, hv, rfl⟩ := hx
  obtain ⟨i, _, hi⟩ := mem_countedUpTo.mp hv
  exact h i v hi

/-- With a positive margin requirement, at most one candidate can have
reached the margin on a given prefix. -/
theorem reach_unique {cfg : Config} {s : Nat → Option JsonValue} {n : Nat}
    (hK : 0 < cfg.voteMarginK) {a b : String}
    (ha : reachesMarginAt cfg s n a) (hb : reachesMarginAt cfg s n b) : a = b := by
  by_contra hab
  obtain ⟨ha1, ha2⟩ := ha
  obtain ⟨hb1, hb2⟩ := hb
  have h1 : countKey s n b ≤ maxOther s n a := countKey_le_maxOther (fun h => hab h.symm) hb1
  have h2 : countKey s n a ≤ maxOther s n b := countKey_le_maxOther (fun h => hab h) ha1
  omega

theorem countKey_le_of_mem_pair {s : Nat → Option JsonValue} {n : Nat} {a b : String}
    (hmem : ∀ x ∈ (countedUpTo s n).map canonicalStringify, x = a ∨ x = b)
    (heq : countKey s n a = countKey s n b) :
    ∀ k, countKey s n k ≤ countKey s n a := by
  intro k
  by_cases hka : k = a
  · subst hka; exact Nat.le_refl _
  · by_cases hkb : k = b
    · subst hkb; omega
    · have : countKey s n k = 0 := by
        rw [countKey, List.count_eq_zero]
        intro hk
        rcases hmem k hk with h | h
        · exact hka h
        · exact hkb h
      omega

/-- C1: First-to-Ahead-by-K margin rule for the sequential consensus engine.
Soundness: whenever the engine declares a winner, the decision happens at an
attempt within the ceiling, the declared winner has reached the K-margin on
the consumed prefix, and no candidate had reached it on any strictly shorter
prefix — so the winner is never declared before the margin is reached.
Completeness: if some candidate is the first to reach the margin at prefix
`n` within the ceiling (with `K ≥ 1`), the engine declares exactly that
candidate at exactly that ballot. -/
theorem c1_first_to_ahead_by_k (cfg : Config) (s : Nat → Option JsonValue) :
    (∀ o, getConsensusResultSequential cfg s = .ok o →
        (0 < o.attempts ∧ o.attempts ≤ cfg.maxAttempts) ∧
        reachesMarginAt cfg s o.attempts o.value ∧
        (∀ m, m < o.attempts → ∀ k, ¬reachesMarginAt cfg s m k)) ∧
    (∀ n, n ≤ cfg.maxAttempts → ∀ k, reachesMarginAt cfg s n k →
        (∀ m, m < n → ∀ k', ¬reachesMarginAt cfg s m k') →
        0 < cfg.voteMarginK →
        ∃ o, getConsensusResultSequential cfg s = .ok o ∧ o.attempts = n ∧ o.value = k) := by
  constructor
  · intro o h
    rw [getSeq_ok_iff] at h
    obtain ⟨n, hn0, hnmax, hcheck, hguard⟩ := h
    obtain ⟨hatt, htot, hK, hcount, hpos⟩ := checkConsensus_some_spec hcheck
    subst hatt
    refine ⟨⟨hn0, hnmax⟩, ⟨hpos, by omega⟩, ?_⟩
    intro m hm k hre
    rcases Nat.eq_zero_or_pos m with hm0 | hm0
    · subst hm0
      have := hre.1
      rw [countKey_zero] at this
      omega
    · exact checkConsensus_fires hre m (hguard m hm0 hm)
  · intro n hnmax k hreach hfirst hK
    have hn0 : 0 < n := by
      rcases Nat.eq_zero_or_pos n with h0 | h0
      · subst h0
        have := hreach.1
        rw [countKey_zero] at this
        omega
      · exact h0
    cases hc : checkConsensus cfg (tallyUpTo s n) n with
    | none => exact absurd hc (checkConsensus_fires hreach n)
    | some o =>
        have hguard : ∀ j, 0 < j → j < n → checkConsensus cfg (tallyUpTo s j) j = none := by
          intro j _ hj
          cases hcj : checkConsensus cfg (tallyUpTo s j) j with
          | none => rfl
          | some o' =>
              obtain ⟨_, _, hK', hcount', hpos'⟩ := checkConsensus_some_spec hcj
              exact absurd ⟨hpos', by omega⟩ (hfirst j hj o'.value)
        have hok : getConsensusResultSequential cfg s = .ok o :=
          (getSeq_ok_iff cfg s o).mpr ⟨n, hn0, hnmax, hc, hguard⟩
        obtain ⟨hatt, _, hK', hcount', hpos'⟩ := checkConsensus_some_spec hc
        refine ⟨o, hok, hatt, ?_⟩
        exact reach_unique hK ⟨hpos', by omega⟩ hreach

/-- C1 witness: with `K = 2` the ballot stream `[1, 2, 1, 1]` decides after
the 4th ballot with winning key `"1"`. -/
theorem c1_first_to_ahead_by_k_witness :
    ∃ o, getConsensusResultSequential ⟨2, 15, 50, false, true⟩
          (fun i => [some (JsonValue.num 1), some (.num 2), some (.num 1), some (.num 1)].getD i none) =
        .ok o ∧ o.attempts = 4 ∧ o.value = "1" := by
  apply (c1_first_to_ahead_by_k ⟨2, 15, 50, false, true⟩
      (fun i => [some (JsonValue.num 1), some (.num 2), some (.num 1), some (.num 1)].getD i none)).2
  · decide
  · decide
  · intro m hm k' hre
    have hmem := reach_key_mem hre
    interval_cases m
    · have := hre.1
      rw [countKey_zero] at this
      omega
    · rw [show (countedUpTo
          (fun i => [some (JsonValue.num 1), some (.num 2), some (.num 1), some (.num 1)].getD i none)
          1).map canonicalStringify = ["1"] from by decide] at hmem
      simp only [List.mem_singleton] at hmem
      subst hmem
      exact absurd hre (by decide)
    · rw [show (countedUpTo
          (fun i => [some (JsonValue.num 1), some (.num 2), some (.num 1), some (.num 1)].getD i none)
          2).map canonicalStringify = ["1", "2"] from by decide] at hmem
      rcases List.mem_cons.mp hmem with h | h
      · subst h
        exact absurd hre (by decide)
      · simp only [List.mem_singleton] at h
        subst h
        exact absurd hre (by decide)
    · rw [show (countedUpTo
          (fun i => [some (JsonValue.num 1), some (.num 2), some (.num 1), some (.num 1)].getD i none)
          3).map canonicalStringify = ["1", "2", "1"] from by decide] at hmem
      rcases List.mem_cons.mp hmem with h | h
      · subst h
        exact absurd hre (by decide)
      · rcases List.mem_cons.mp h with h | h
        · subst h
          exact absurd hre (by decide)
        · simp only [List.mem_singleton] at h
          subst h
          exact absurd hre (by decide)
  · decide

/-- C3: for every `K ≥ 1`, a tie between two distinct leading candidates at
the same count never satisfies the margin-K winning condition — so a ballot
stream that keeps two leading candidates perpetually tied never reaches the
margin; and whenever no candidate reaches the margin on any prefix within the
ceiling, the sequential engine never decides, consumes the configured attempt
ceiling and throws the "unresolved consensus" error naming it. -/
theorem c3_tie_nontermination (cfg : Config) (s : Nat → Option JsonValue)
    (hK : 0 < cfg.voteMarginK) :
    (∀ n a b, a ≠ b → countKey s n a = countKey s n b →
        (∀ k, countKey s n k ≤ countKey s n a) →
        ∀ k, ¬reachesMarginAt cfg s n k) ∧
    ((∀ n, n ≤ cfg.maxAttempts → ∀ k, ¬reachesMarginAt cfg s n k) →
      getConsensusResultSequential cfg s = .error (exhaustMsg cfg)) := by
  constructor
  · intro n a b hab heq hmax k hre
    obtain ⟨hpos, hlead⟩ := hre
    rcases (em (k = a)) with hka | hka
    · subst hka
      have h1 : countKey s n b ≤ maxOther s n k := by
        apply countKey_le_maxOther (fun h => hab h.symm)
        omega
      have := hmax k
      omega
    · have h1 : countKey s n a ≤ maxOther s n k := by
        apply countKey_le_maxOther (fun h => hka h.symm)
        have := hmax k
        omega
      have := hmax k
      omega
  · intro hnoreach
    rcases seqLoop_total cfg s cfg.maxAttempts 0 [] with ⟨o, ho⟩ | ho
    · exfalso
      have hok : getConsensusResultSequential cfg s = .ok o := ho
      rw [getSeq_ok_iff] at hok
      obtain ⟨n, hn0, hnmax, hcheck, _⟩ := hok
      obtain ⟨_, _, hK', hcount', hpos'⟩ := checkConsensus_some_spec hcheck
      exact hnoreach n hnmax o.value ⟨hpos', by omega⟩
    · exact ho

/-- C3 witness: `K = 2`, `MaxAttempts = 6`, ballots alternating between two
values, fails after 6 attempts with the unresolved-consensus error. -/
theorem c3_tie_nontermination_witness :
    getConsensusResultSequential ⟨2, 6, 50, false, true⟩
        (fun i => if i % 2 = 0 then some (JsonValue.num 1) else some (.num 2)) =
      .error (exhaustMsg ⟨2, 6, 50, false, true⟩) := by
  apply (c3_tie_nontermination ⟨2, 6, 50, false, true⟩
      (fun i => if i % 2 = 0 then some (JsonValue.num 1) else some (.num 2))
      (by decide)).2
  intro n hn k hre
  have hmem := reach_key_mem hre
  have hcase : k = "1" ∨ k = "2" := by
    refine countedUpTo_keys_sub (P := fun x => x = "1" ∨ x = "2") ?_ n k hmem
    intro i v hv
    by_cases hi : i % 2 = 0
    · rw [if_pos hi] at hv
      injection hv with hv
      subst hv
      left; rfl
    · rw [if_neg hi] at hv
      injection hv with hv
      subst hv
      right; rfl
  rcases hcase with h | h <;>
    · subst h
      revert hre
      clear hmem
      interval_cases n <;> decide

/-- C7 (amended): whenever the sequential engine decides, the outcome's value
is the canonical tally key of some ballot in the consumed prefix (the source
returns `JSON.parse` of this key, structurally equal to that winning ballot),
the margin equals the leader's count minus the best competing count (`0` when
there is no second distinct key), and both counters record the attempts
consumed — the `totalVotes` field equals the attempts consumed, not the
number of accepted ballots. -/
theorem c7_outcome_contents (cfg : Config) (s : Nat → Option JsonValue) (o : Outcome)
    (h : getConsensusResultSequential cfg s = .ok o) :
    (∃ i, i < o.attempts ∧ ∃ v, s i = some v ∧ canonicalStringify v = o.value) ∧
    countKey s o.attempts o.value = maxOther s o.attempts o.value + o.voteMargin ∧
    cfg.voteMarginK ≤ o.voteMargin ∧
    0 < o.attempts ∧ o.attempts ≤ cfg.maxAttempts ∧
    o.totalVotes = o.attempts := by
  rw [getSeq_ok_iff] at h
  obtain ⟨n, hn0, hnmax, hcheck, _⟩ := h
  obtain ⟨hatt, htot, hK, hcount, hpos⟩ := checkConsensus_some_spec hcheck
  subst hatt
  refine ⟨?_, hcount, hK, hn0, hnmax, htot⟩
  have hmem := one_le_countKey_iff.mp hpos
  simp only [List.mem_map] at hmem
  obtain ⟨v, hv, hcanon⟩ := hmem
  obtain ⟨i, hi, hsi⟩ := mem_countedUpTo.mp hv
  exact ⟨i, hi, v, hsi, hcanon⟩

/-- C7 witness: flagged-then-two-agreeing-ballots run, decided at attempt 3. -/
theorem c7_outcome_contents_witness :
    (∃ i, i < (3 : Nat) ∧ ∃ v,
        (fun i => [none, some (JsonValue.num 1), some (.num 1)].getD i none) i = some v ∧
          canonicalStringify v = "1") ∧
    (2 : Nat) ≤ 2 := by
  have h := c7_outcome_contents ⟨2, 15, 50, false, true⟩
      (fun i => [none, some (JsonValue.num 1), some (.num 1)].getD i none)
      ⟨"1", 2, 3, 3⟩ (by decide)
  exact ⟨h.1, h.2.2.1⟩

/-- C7 counterexample: as stated, the claim requires the outcome to contain
the total accepted (non-flagged) vote count, but the engine stores the
attempt count in `totalVotes`: the run `[flagged, 1, 1]` with `K = 2` decides
with `totalVotes = 3` while only 2 ballots were accepted. -/
theorem c7_outcome_contents_cex :
    getConsensusResultSequential ⟨2, 15, 50, false, true⟩
        (fun i => [none, some (JsonValue.num 1), some (.num 1)].getD i none) =
      .ok ⟨"1", 2, 3, 3⟩ ∧
    ((countedUpTo (fun i => [none, some (JsonValue.num 1), some (.num 1)].getD i none) 3).length
        = 2) ∧
    (3 : Nat) ≠ 2 := by
  refine ⟨by decide, by decide, by decide⟩

/-! ### Flagged-ballot neutrality -/

theorem tallyUpTo_eq_fold (s : Nat → Option JsonValue) (n : Nat) :
    tallyUpTo s n =
      (countedUpTo s n).foldl (fun v x => addVote v (canonicalStringify x)) [] := by
  induction n with
  | zero => rfl
  | succ n ih =>
      cases hb : s n with
      | none => rw [tallyUpTo_succ_none hb, countedUpTo_succ_none hb, ih]
      | some v =>
          rw [tallyUpTo_succ_some hb, countedUpTo_succ_some hb, List.foldl_append, ih]
          rfl

/-- Engine tallies are a function of the counted-ballot list alone: streams
with the same counted prefix accumulate the same tally. -/
theorem tallyUpTo_congr {s t : Nat → Option JsonValue} {n m : Nat}
    (h : countedUpTo t n = countedUpTo s m) : tallyUpTo t n = tallyUpTo s m := by
  rw [tallyUpTo_eq_fold, tallyUpTo_eq_fold, h]

theorem countedUpTo_extend (s : Nat → Option JsonValue) :
    ∀ {m n : Nat}, m ≤ n → ∃ suf, countedUpTo s n = countedUpTo s m ++ suf := by
  intro m n
  induction n with
  | zero =>
      intro hm
      exact ⟨[], by simp [Nat.le_zero.mp hm]⟩
  | succ n ih =>
      intro hm
      rcases Nat.lt_succ_iff_lt_or_eq.mp (Nat.lt_succ_of_le hm) with hm' | rfl
      · obtain ⟨suf, hsuf⟩ := ih (by omega)
        cases hb : s n with
        | none => exact ⟨suf, by rw [countedUpTo_succ_none hb, hsuf]⟩
        | some v => exact ⟨suf ++ [v], by rw [countedUpTo_succ_some hb, hsuf, List.append_assoc]⟩
      · exact ⟨[], by simp⟩

theorem countedUpTo_take (s : Nat → Option JsonValue) :
    ∀ (N j : Nat), j ≤ (countedUpTo s N).length →
      ∃ m, m ≤ N ∧ countedUpTo s m = (countedUpTo s N).take j := by
  intro N
  induction N with
  | zero =>
      intro j hj
      simp only [show countedUpTo s 0 = [] from rfl, List.length_nil, Nat.le_zero] at hj
      subst hj
      exact ⟨0, Nat.le_refl 0, rfl⟩
  | succ N ih =>
      intro j hj
      cases hb : s N with
      | none =>
          rw [countedUpTo_succ_none hb] at hj ⊢
          obtain ⟨m, hm, hm'⟩ := ih j hj
          exact ⟨m, by omega, hm'⟩
      | some v =>
          rw [countedUpTo_succ_some hb] at hj ⊢
          rcases Nat.lt_or_ge j ((countedUpTo s N).length + 1) with hj' | hj'
          · have hjl : j ≤ (countedUpTo s N).length := by omega
            obtain ⟨m, hm, hm'⟩ := ih j hjl
            refine ⟨m, by omega, ?_⟩
            rw [List.take_append_eq_append_take,
              show j - (countedUpTo s N).length = 0 from by omega]
            simpa using hm'
          · have hjl : j = (countedUpTo s N).length + 1 := by
              simp only [List.length_append, List.length_singleton] at hj
              omega
            refine ⟨N + 1, Nat.le_refl _, ?_⟩
            rw [countedUpTo_succ_some hb, List.take_of_length_le (by simp [hjl])]

/-- C4 (amended): interleaving flagged (discarded) worker results into a
winning ballot sequence — so long as the decision still falls within the
attempt ceiling — changes neither the winning key, nor the margin, nor the
counted ballots required to win; each flagged result consumes exactly one
attempt and never changes a decision check.  `t` is any stream whose counted
ballots up to attempt `n` are exactly the counted ballots `s` needed to
decide, with the `n`-th attempt counted. -/
theorem c4_flagged_neutrality (cfg : Config) (s t : Nat → Option JsonValue) (o : Outcome)
    (n : Nat)
    (hs : getConsensusResultSequential cfg s = .ok o)
    (hc : countedUpTo t n = countedUpTo s o.attempts)
    (hn0 : 0 < n)
    (hlast : t (n - 1) ≠ none)
    (hmax : n ≤ cfg.maxAttempts) :
    getConsensusResultSequential cfg t = .ok ⟨o.value, o.voteMargin, n, n⟩ ∧
    (countedUpTo t n).length = (countedUpTo s o.attempts).length := by
  refine ⟨?_, by rw [hc]⟩
  rw [getSeq_ok_iff] at hs
  obtain ⟨A, hA0, hAmax, hcheck, hguard⟩ := hs
  have hAatt : o.attempts = A := (checkConsensus_some_spec hcheck).1
  rw [hAatt] at hc
  have hL1 : 1 ≤ (countedUpTo s A).length := by
    have hpos := (checkConsensus_some_spec hcheck).2.2.2.2
    have := one_le_countKey_iff.mp hpos
    have hne : countedUpTo s A ≠ [] := by
      intro hnil
      rw [hnil] at this
      simp at this
    cases hcl : countedUpTo s A with
    | nil => exact absurd hcl hne
    | cons x xs => simp [hcl]
  rw [getSeq_ok_iff]
  refine ⟨n, hn0, hmax, ?_, ?_⟩
  · have htt : tallyUpTo t n = tallyUpTo s A := tallyUpTo_congr hc
    rw [htt]
    exact checkConsensus_attempts hcheck
  · intro j hj0 hjn
    obtain ⟨v, hv⟩ : ∃ v, t (n - 1) = some v := by
      cases hvv : t (n - 1) with
      | none => exact absurd hvv hlast
      | some w => exact ⟨w, rfl⟩
    have hsplit : countedUpTo t n = countedUpTo t (n - 1) ++ [v] := by
      have h := countedUpTo_succ_some (s := t) (n := n - 1) hv
      rw [show n - 1 + 1 = n from by omega] at h
      exact h
    obtain ⟨suf1, hsuf1⟩ := countedUpTo_extend t (show j ≤ n - 1 from by omega)
    have hlenA : (countedUpTo t n).length = (countedUpTo s A).length := by rw [hc]
    have hlen : (countedUpTo t j).length ≤ (countedUpTo s A).length - 1 := by
      have h1 : (countedUpTo t j).length ≤ (countedUpTo t (n - 1)).length := by
        rw [hsuf1]
        simp
      have h2 : (countedUpTo t n).length = (countedUpTo t (n - 1)).length + 1 := by
        rw [hsplit]
        simp
      omega
    have htake : countedUpTo t j = (countedUpTo s A).take (countedUpTo t j).length := by
      obtain ⟨suf2, hsuf2⟩ := countedUpTo_extend t (show j ≤ n from by omega)
      rw [← hc, hsuf2, List.take_left]
    obtain ⟨m', hm'A, hm'⟩ := countedUpTo_take s A (countedUpTo t j).length (by omega)
    have hm'lt : m' < A := by
      rcases Nat.lt_or_ge m' A with h | h
      · exact h
      · exfalso
        have hmA : m' = A := by omega
        subst hmA
        have : (countedUpTo s m').length = (countedUpTo t j).length := by
          rw [hm']
          simp only [List.length_take]
          omega
        omega
    have htj : tallyUpTo t j = tallyUpTo s m' := tallyUpTo_congr (by rw [htake, hm'])
    rcases Nat.eq_zero_or_pos m' with h0 | h0
    · subst h0
      rw [htj]
      exact checkConsensus_tallyZero cfg s j
    · rw [htj]
      exact checkConsensus_none_congr (hguard m' h0 hm'lt)

/-- C4 witness: `[flagged, 1, flagged, 1]` with `K = 2` decides the same key
as `[1, 1]`, with the same margin and the same 2 counted ballots, after 4
attempts. -/
theorem c4_flagged_neutrality_witness :
    getConsensusResultSequential ⟨2, 15, 50, false, true⟩
        (fun i => [none, some (JsonValue.num 1), none, some (.num 1)].getD i none) =
      .ok ⟨"1", 2, 4, 4⟩ ∧
    (countedUpTo (fun i => [none, some (JsonValue.num 1), none, some (.num 1)].getD i none)
        4).length =
      (countedUpTo (fun i => [some (JsonValue.num 1), some (.num 1)].getD i none) 2).length := by
  have h := c4_flagged_neutrality ⟨2, 15, 50, false, true⟩
      (fun i => [some (JsonValue.num 1), some (.num 1)].getD i none)
      (fun i => [none, some (JsonValue.num 1), none, some (.num 1)].getD i none)
      ⟨"1", 2, 2, 2⟩ 4 (by decide) rfl (by decide)
      (by intro h; exact Option.noConfusion h) (by decide)
  exact h

/-- C4 counterexample to the unrestricted claim: flagged results are only
neutral while the decision still fits the attempt ceiling.  With `K = 1` and
`MaxAttempts = 1`, the stream `[1]` wins, but interleaving one flagged result
in front exhausts the ceiling and the run fails instead of producing the same
winner. -/
theorem c4_flagged_neutrality_cex :
    getConsensusResultSequential ⟨1, 1, 50, false, true⟩
        (fun i => [some (JsonValue.num 1)].getD i none) = .ok ⟨"1", 1, 1, 1⟩ ∧
    getConsensusResultSequential ⟨1, 1, 50, false, true⟩
        (fun i => [none, some (JsonValue.num 1)].getD i none) =
      .error (exhaustMsg ⟨1, 1, 50, false, true⟩) :=
  ⟨by decide, by decide⟩

/-! ### Strategy equivalence -/

theorem seqLoop_fuel_irrel (cfg : Config) (s : Nat → Option JsonValue) :
    ∀ f1 f2 m votes, cfg.maxAttempts ≤ m + f1 → cfg.maxAttempts ≤ m + f2 →
      seqLoop cfg s f1 m votes = seqLoop cfg s f2 m votes := by
  intro f1
  induction f1 with
  | zero =>
      intro f2 m votes h1 h2
      cases f2 with
      | zero => rfl
      | succ f2 =>
          rw [seqLoop_succ, if_neg (by omega)]
          rfl
  | succ f1 ih =>
      intro f2 m votes h1 h2
      cases f2 with
      | zero =>
          rw [seqLoop_succ, if_neg (by omega)]
          rfl
      | succ f2 =>
          by_cases hm : m < cfg.maxAttempts
          · cases hb : s m with
            | none =>
                simp only [seqLoop_succ, if_pos hm, hb]
                exact ih f2 (m + 1) votes (by omega) (by omega)
            | some v =>
                simp only [seqLoop_succ, if_pos hm, hb]
                cases hc : checkConsensus cfg (addVote votes (canonicalStringify v)) (m + 1) with
                | some out => rfl
                | none => exact ih f2 (m + 1) _ (by omega) (by omega)
          · simp only [seqLoop_succ, if_neg hm]

theorem earlyBatch_succ (cfg : Config) (s : Nat → Option JsonValue) (batch m : Nat)
    (votes : Tally) :
    earlyBatch cfg s (batch + 1) m votes =
      match s m with
      | none => earlyBatch cfg s batch (m + 1) votes
      | some result =>
          match checkConsensus cfg (addVote votes (canonicalStringify result)) (m + 1) with
          | some out => .inl out
          | none => earlyBatch cfg s batch (m + 1) (addVote votes (canonicalStringify result)) :=
  rfl

theorem earlyBatch_inr_attempts (cfg : Config) (s : Nat → Option JsonValue) :
    ∀ b m votes m' votes', earlyBatch cfg s b m votes = .inr (m', votes') → m' = m + b := by
  intro b
  induction b with
  | zero =>
      intro m votes m' votes' h
      injection h with h
      injection h with h1 h2
      omega
  | succ b ih =>
      intro m votes m' votes' h
      cases hb : s m with
      | none =>
          simp only [earlyBatch_succ, hb] at h
          have := ih (m + 1) votes m' votes' h
          omega
      | some v =>
          simp only [earlyBatch_succ, hb] at h
          cases hc : checkConsensus cfg (addVote votes (canonicalStringify v)) (m + 1) with
          | some out =>
              rw [hc] at h
              exact absurd h (by simp)
          | none =>
              rw [hc] at h
              have := ih (m + 1) _ m' votes' h
              omega

/-- Within the attempt budget, one early-termination batch behaves exactly
as that many iterations of the sequential loop. -/
theorem earlyBatch_seqLoop (cfg : Config) (s : Nat → Option JsonValue) :
    ∀ b extra m votes, m + b ≤ cfg.maxAttempts →
      seqLoop cfg s (b + extra) m votes =
        (match earlyBatch cfg s b m votes with
         | .inl out => .ok out
         | .inr st => seqLoop cfg s extra st.1 st.2) := by
  intro b
  induction b with
  | zero =>
      intro extra m votes _
      show seqLoop cfg s (0 + extra) m votes = seqLoop cfg s extra m votes
      rw [Nat.zero_add]
  | succ b ih =>
      intro extra m votes hble
      have hm : m < cfg.maxAttempts := by omega
      rw [show b + 1 + extra = (b + extra) + 1 from by omega]
      cases hbal : s m with
      | none =>
          simp only [seqLoop_succ, if_pos hm, earlyBatch_succ, hbal]
          exact ih extra (m + 1) votes (by omega)
      | some v =>
          simp only [seqLoop_succ, if_pos hm, earlyBatch_succ, hbal]
          cases hc : checkConsensus cfg (addVote votes (canonicalStringify v)) (m + 1) with
          | some out => rfl
          | none => exact ih extra (m + 1) _ (by omega)

theorem parLoop_succ (cfg : Config) (s : Nat → Option JsonValue) (fuel m : Nat)
    (votes : Tally) :
    parLoop cfg s (fuel + 1) m votes =
      if m < cfg.maxAttempts then
        let batchSize := min cfg.batchSize (cfg.maxAttempts - m)
        if cfg.earlyTermination then
          match earlyBatch cfg s batchSize m votes with
          | .inl out => .ok out
          | .inr (attempts', votes') => parLoop cfg s fuel attempts' votes'
        else
          let st := tallyBatch s batchSize m votes
          match checkConsensus cfg st.2 st.1 with
          | some out => .ok out
          | none => parLoop cfg s fuel st.1 st.2
      else .error (exhaustMsg cfg) := rfl

theorem parLoop_succ_early (cfg : Config) (s : Nat → Option JsonValue) (fuel m : Nat)
    (votes : Tally) (hm : m < cfg.maxAttempts) (hET : cfg.earlyTermination = true) :
    parLoop cfg s (fuel + 1) m votes =
      match earlyBatch cfg s (min cfg.batchSize (cfg.maxAttempts - m)) m votes with
      | .inl out => .ok out
      | .inr (attempts', votes') => parLoop cfg s fuel attempts' votes' := by
  rw [parLoop_succ, if_pos hm]
  simp only [hET, if_true]

/-- With early termination on and a positive batch size, the parallel loop is
extensionally the sequential loop. -/
theorem parLoop_eq_seqLoop (cfg : Config) (s : Nat → Option JsonValue)
    (hET : cfg.earlyTermination = true) (hbs : 1 ≤ cfg.batchSize) :
    ∀ fuel m votes, cfg.maxAttempts ≤ m + fuel →
      parLoop cfg s fuel m votes = seqLoop cfg s fuel m votes := by
  intro fuel
  induction fuel with
  | zero =>
      intro m votes h
      rw [show parLoop cfg s 0 m votes =
        if m < cfg.maxAttempts then Except.error "nonterminating batch loop"
        else .error (exhaustMsg cfg) from rfl]
      rw [if_neg (by omega)]
      rfl
  | succ fuel ih =>
      intro m votes hf
      by_cases hm : m < cfg.maxAttempts
      · rw [parLoop_succ_early cfg s fuel m votes hm hET]
        have hb1 : 1 ≤ min cfg.batchSize (cfg.maxAttempts - m) := le_min hbs (by omega)
        have hble : m + min cfg.batchSize (cfg.maxAttempts - m) ≤ cfg.maxAttempts := by
          have := min_le_right cfg.batchSize (cfg.maxAttempts - m)
          omega
        have hbf : min cfg.batchSize (cfg.maxAttempts - m) ≤ fuel + 1 := by
          have := min_le_right cfg.batchSize (cfg.maxAttempts - m)
          omega
        have hseq : seqLoop cfg s (fuel + 1) m votes =
            match earlyBatch cfg s (min cfg.batchSize (cfg.maxAttempts - m)) m votes with
            | .inl out => .ok out
            | .inr st =>
                seqLoop cfg s (fuel + 1 - min cfg.batchSize (cfg.maxAttempts - m)) st.1 st.2 := by
          have h := earlyBatch_seqLoop cfg s (min cfg.batchSize (cfg.maxAttempts - m))
            (fuel + 1 - min cfg.batchSize (cfg.maxAttempts - m)) m votes hble
          rw [show min cfg.batchSize (cfg.maxAttempts - m) +
              (fuel + 1 - min cfg.batchSize (cfg.maxAttempts - m)) = fuel + 1 from by omega] at h
          exact h
        rw [hseq]
        cases hE : earlyBatch cfg s (min cfg.batchSize (cfg.maxAttempts - m)) m votes with
        | inl out => rfl
        | inr st =>
            have hst : st.1 = m + min cfg.batchSize (cfg.maxAttempts - m) :=
              earlyBatch_inr_attempts cfg s _ m votes st.1 st.2 (by rw [hE])
            change parLoop cfg s fuel st.1 st.2 =
              seqLoop cfg s (fuel + 1 - min cfg.batchSize (cfg.maxAttempts - m)) st.1 st.2
            rw [ih st.1 st.2 (by omega)]
            exact seqLoop_fuel_irrel cfg s fuel
              (fuel + 1 - min cfg.batchSize (cfg.maxAttempts - m)) st.1 st.2 (by omega) (by omega)
      · rw [parLoop_succ, if_neg hm, seqLoop_succ, if_neg hm]

/-- C2 (amended): with the early-termination sub-mode (and a positive batch
size), the parallel-batched strategy computes exactly the same result as the
sequential strategy on every ballot stream — same winner, same margin, and
even the same attempt count.  The exhaustive-batch sub-mode is not winner-
equivalent in general (see the counterexample). -/
theorem c2_strategy_equivalence (cfg : Config) (s : Nat → Option JsonValue)
    (hET : cfg.earlyTermination = true) (hbs : 1 ≤ cfg.batchSize) :
    getConsensusResultParallel cfg s = getConsensusResultSequential cfg s := by
  rw [getConsensusResultParallel, getConsensusResultSequential]
  exact parLoop_eq_seqLoop cfg s hET hbs cfg.maxAttempts 0 [] (by omega)

/-- C2 witness: a concrete early-termination configuration on which the two
strategies agree (both decide key "1" with margin 2 after 2 attempts). -/
theorem c2_strategy_equivalence_witness :
    getConsensusResultParallel ⟨2, 15, 50, true, true⟩
        (fun i => [some (JsonValue.num 1), some (.num 1)].getD i none) =
      getConsensusResultSequential ⟨2, 15, 50, true, true⟩
        (fun i => [some (JsonValue.num 1), some (.num 1)].getD i none) ∧
    getConsensusResultSequential ⟨2, 15, 50, true, true⟩
        (fun i => [some (JsonValue.num 1), some (.num 1)].getD i none) = .ok ⟨"1", 2, 2, 2⟩ :=
  ⟨c2_strategy_equivalence ⟨2, 15, 50, true, true⟩
      (fun i => [some (JsonValue.num 1), some (.num 1)].getD i none) rfl (by decide),
    by decide⟩

/-- C2 counterexample to the claim as stated: in the exhaustive-batch
sub-mode the winner itself can differ from the sequential strategy.  With
`K = 1`, batch size 3 and stream `[1, 2, 2]`, the sequential engine decides
key "1" after the first ballot, while the exhaustive batch tallies all three
ballots and decides key "2". -/
theorem c2_strategy_equivalence_cex :
    getConsensusResultParallel ⟨1, 3, 3, true, false⟩
        (fun i => [some (JsonValue.num 1), some (.num 2), some (.num 2)].getD i none) =
      .ok ⟨"2", 1, 3, 3⟩ ∧
    getConsensusResultSequential ⟨1, 3, 3, true, false⟩
        (fun i => [some (JsonValue.num 1), some (.num 2), some (.num 2)].getD i none) =
      .ok ⟨"1", 1, 1, 1⟩ ∧
    ("2" : String) ≠ "1" :=
  ⟨by decide, by decide, by decide⟩

/-! ### Error reporting -/

theorem isPrefixOf_append_self (n z : List Char) : n.isPrefixOf (n ++ z) = true := by
  induction n with
  | nil => simp [List.isPrefixOf]
  | cons c cs ih => simp [List.isPrefixOf, ih]

theorem listHasSub_of_isPrefixOf {n hay : List Char} (h : n.isPrefixOf hay = true) :
    listHasSub n hay = true := by
  cases hay with
  | nil =>
      cases n with
      | nil => rfl
      | cons c cs => simp [List.isPrefixOf] at h
  | cons c rest => simp [listHasSub, h]

theorem listHasSub_cons {n rest : List Char} (c : Char) (h : listHasSub n rest = true) :
    listHasSub n (c :: rest) = true := by
  simp [listHasSub, h]

theorem listHasSub_append (n pre post : List Char) :
    listHasSub n (pre ++ (n ++ post)) = true := by
  induction pre with
  | nil => exact listHasSub_of_isPrefixOf (isPrefixOf_append_self n post)
  | cons c pre ih => exact listHasSub_cons c ih

/-- A string built as `pre ++ needle ++ post` mentions `needle`. -/
theorem strMentions_append (needle pre post : String) :
    strMentions needle (pre ++ needle ++ post) = true := by
  unfold strMentions
  rw [String.data_append, String.data_append, List.append_assoc]
  exact listHasSub_append needle.data pre.data post.data

/-- The step loop halts at the first failing step: if steps before `k`
resolve and step `k`'s consensus fails with `msg`, the whole run terminates
with step `k`'s failure report, regardless of the remaining instructions and
of every later step's worker streams. -/
theorem runSteps_fail (cfg : Config) (streams : Nat → Nat → Option JsonValue)
    (decode : String → JsonValue) :
    ∀ (instrs : List String) (i k : Nat) (state : StateObj) (msg : String),
      k < instrs.length →
      (∀ j, j < k → ∃ o, getConsensusResult cfg (streams (i + j)) = .ok o) →
      getConsensusResult cfg (streams (i + k)) = .error msg →
      runSteps cfg streams decode instrs i state = .error ⟨i + k, stepFailText (i + k) msg⟩ := by
  intro instrs
  induction instrs with
  | nil =>
      intro i k state msg hk
      simp at hk
  | cons instr rest ih =>
      intro i k state msg hk hok herr
      cases k with
      | zero =>
          rw [show i + 0 = i from rfl] at herr
          simp [runSteps, herr]
      | succ k =>
          obtain ⟨o, ho⟩ := hok 0 (by omega)
          rw [show i + 0 = i from rfl] at ho
          simp only [runSteps, ho]
          have h := ih (i + 1) k (mergeStep state (decode o.value)) msg
            (by simpa using hk)
            (fun j hj => by
              have hh := hok (j + 1) (by omega)
              rwa [show i + (j + 1) = i + 1 + j from by omega] at hh)
            (by rwa [show i + 1 + k = i + (k + 1) from by omega])
          rwa [show i + 1 + k = i + (k + 1) from by omega] at h

/-- C8 (amended): a step that exhausts its attempt ceiling fails with the
"unresolved consensus" error — the only error the sequential engine throws —
whose text names the configured ceiling (which is also the attempt count
consumed); the failure is fatal to the whole run, which stops at that step's
failure report (step number plus error text, with no retry and no
skip-and-continue); the instruction text itself is not part of the failure
report. -/
theorem c8_unresolved_error_reporting (cfg : Config)
    (streams : Nat → Nat → Option JsonValue) (decode : String → JsonValue) :
    (∀ s msg, getConsensusResultSequential cfg s = .error msg → msg = exhaustMsg cfg) ∧
    strMentions (toString cfg.maxAttempts) (exhaustMsg cfg) = true ∧
    (∀ i, strMentions (toString cfg.maxAttempts) (stepFailText i (exhaustMsg cfg)) = true) ∧
    (∀ instrs k state msg, k < instrs.length →
      (∀ j, j < k → ∃ o, getConsensusResult cfg (streams j) = .ok o) →
      getConsensusResult cfg (streams k) = .error msg →
      runSteps cfg streams decode instrs 0 state = .error ⟨k, stepFailText k msg⟩) := by
  refine ⟨getSeq_error_msg cfg, ?_, ?_, ?_⟩
  · exact strMentions_append (toString cfg.maxAttempts) "Failed to reach consensus after "
      " attempts."
  · intro i
    have hsplit : (" Failed: Failed to reach consensus after " : String) =
        " Failed: " ++ "Failed to reach consensus after " := by decide
    have h := strMentions_append (toString cfg.maxAttempts)
      ("Step " ++ toString (i + 1) ++ " Failed: Failed to reach consensus after ")
      " attempts."
    rw [show ("Step " ++ toString (i + 1) ++ " Failed: Failed to reach consensus after ") ++
        toString cfg.maxAttempts ++ " attempts." = stepFailText i (exhaustMsg cfg) from by
      rw [hsplit]
      simp only [stepFailText, exhaustMsg, String.append_assoc]] at h
    exact h
  · intro instrs k state msg hk hok herr
    have h := runSteps_fail cfg streams decode instrs 0 k state msg hk
      (fun j hj => by simpa using hok j hj) (by simpa using herr)
    simpa using h

/-- C8 witness: two all-flagged attempts with ceiling 2 fail the single-step
run at step index 0 with the report naming the ceiling. -/
theorem c8_unresolved_error_reporting_witness :
    runSteps ⟨2, 2, 50, false, true⟩ (fun _ _ => none) (fun _ => JsonValue.null)
        ["Add 10"] 0 (initialState "task") =
      .error ⟨0, stepFailText 0 (exhaustMsg ⟨2, 2, 50, false, true⟩)⟩ ∧
    strMentions (toString (2 : Nat)) (stepFailText 0 (exhaustMsg ⟨2, 2, 50, false, true⟩)) =
      true := by
  have h := c8_unresolved_error_reporting ⟨2, 2, 50, false, true⟩ (fun _ _ => none)
    (fun _ => JsonValue.null)
  refine ⟨?_, h.2.2.1 0⟩
  exact h.2.2.2 ["Add 10"] 0 (initialState "task") (exhaustMsg ⟨2, 2, 50, false, true⟩)
    (by decide) (fun j hj => absurd hj (by omega)) (by decide)

/-- C8 counterexample to the claim as stated: the failure report printed for
a failed step contains the step number and the attempt count but not the
instruction text ("Add 10" here). -/
theorem c8_unresolved_error_reporting_cex :
    runSteps ⟨2, 2, 50, false, true⟩ (fun _ _ => none) (fun _ => JsonValue.null)
        ["Add 10"] 0 (initialState "task") =
      .error ⟨0, "Step 1 Failed: Failed to reach consensus after 2 attempts."⟩ ∧
    strMentions "Add 10" "Step 1 Failed: Failed to reach consensus after 2 attempts." =
      false :=
  ⟨rfl, by decide⟩

/-! ### State management -/

theorem objSet_lookup_self (st : StateObj) (k : String) (v : JsonValue) :
    (objSet st k v).lookup k = some v := by
  induction st with
  | nil => simp [objSet, List.lookup]
  | cons p rest ih =>
      obtain ⟨k', v'⟩ := p
      by_cases hk : k' = k
      · subst hk
        simp [objSet, List.lookup]
      · simp only [objSet, if_neg hk, List.lookup]
        rw [show (k == k') = false from by simpa using fun hh => hk hh.symm]
        exact ih

theorem objSet_lookup_other (st : StateObj) (k k' : String) (v : JsonValue)
    (h : k' ≠ k) : (objSet st k v).lookup k' = st.lookup k' := by
  induction st with
  | nil =>
      simp only [objSet, List.lookup]
      rw [show (k' == k) = false from by simpa using h]
  | cons p rest ih =>
      obtain ⟨k'', v''⟩ := p
      by_cases hk : k'' = k
      · subst hk
        simp only [objSet, if_pos rfl, List.lookup]
        rw [show (k' == k'') = false from by simpa using h]
      · simp only [objSet, if_neg hk, List.lookup]
        cases hc : k' == k'' with
        | true => rfl
        | false => exact ih

theorem objMergeFields_lookup_not_mem (st : StateObj) (fs : List (String × JsonValue))
    (key : String) (h : key ∉ fs.map Prod.fst) :
    (objMergeFields st fs).lookup key = st.lookup key := by
  induction fs generalizing st with
  | nil => rfl
  | cons p fs ih =>
      obtain ⟨k, v⟩ := p
      simp only [List.map_cons, List.mem_cons] at h
      push_neg at h
      simp only [objMergeFields, List.foldl_cons]
      rw [show (fs.foldl (fun acc p => objSet acc p.1 p.2) (objSet st k v)) =
          objMergeFields (objSet st k v) fs from rfl]
      rw [ih (objSet st k v) h.2]
      exact objSet_lookup_other st k key v h.1

theorem lastN_length_le (n : Nat) (l : List α) : (lastN n l).length ≤ n := by
  simp only [lastN, List.length_drop]
  omega

theorem lastN_of_length_le {n : Nat} {l : List α} (h : l.length ≤ n) : lastN n l = l := by
  simp only [lastN, show l.length - n = 0 from by omega, List.drop_zero]

/-- Re-capping an already capped history buffer after appending more entries
is the same as capping once at the end. -/
theorem lastN_append_lastN (n : Nat) (xs ys : List α) :
    lastN n (lastN n xs ++ ys) = lastN n (xs ++ ys) := by
  simp only [lastN, List.length_append, List.length_drop]
  rcases le_or_lt n ys.length with hn | hn
  · rw [show xs.length - (xs.length - n) + ys.length - n =
        (xs.drop (xs.length - n)).length + (ys.length - n) from by
      simp only [List.length_drop]
      omega]
    rw [List.drop_append]
    rw [show xs.length + ys.length - n = xs.length + (ys.length - n) from by omega]
    rw [List.drop_append]
  · rw [List.drop_append_of_le_length (by simp only [List.length_drop]; omega)]
    rw [List.drop_append_of_le_length (by omega)]
    rw [List.drop_drop]
    congr 2
    omega

theorem mergeStep_history (state : StateObj) (v : JsonValue) (hist : List JsonValue)
    (hh : state.lookup "history" = some (.arr hist)) :
    (mergeStep state v).lookup "history" = some (.arr (lastN 5 (hist ++ [v]))) := by
  cases v <;>
    · simp only [mergeStep, hh]
      exact objSet_lookup_self _ _ _

theorem mergeStep_other (state : StateObj) (v : JsonValue) (key : String)
    (hk1 : key ≠ "history") (hk2 : key ≠ "current_value") (hk3 : ¬objHasKey key v) :
    (mergeStep state v).lookup key = state.lookup key := by
  cases v with
  | obj fs =>
      simp only [mergeStep]
      rw [objSet_lookup_other _ _ _ _ hk1]
      exact objMergeFields_lookup_not_mem state fs key hk3
  | null =>
      simp only [mergeStep]
      rw [objSet_lookup_other _ _ _ _ hk1, objSet_lookup_other _ _ _ _ hk2]
  | undef =>
      simp only [mergeStep]
      rw [objSet_lookup_other _ _ _ _ hk1, objSet_lookup_other _ _ _ _ hk2]
  | bool b =>
      simp only [mergeStep]
      rw [objSet_lookup_other _ _ _ _ hk1, objSet_lookup_other _ _ _ _ hk2]
  | num n =>
      simp only [mergeStep]
      rw [objSet_lookup_other _ _ _ _ hk1, objSet_lookup_other _ _ _ _ hk2]
  | str s =>
      simp only [mergeStep]
      rw [objSet_lookup_other _ _ _ _ hk1, objSet_lookup_other _ _ _ _ hk2]
  | arr xs =>
      simp only [mergeStep]
      rw [objSet_lookup_other _ _ _ _ hk1, objSet_lookup_other _ _ _ _ hk2]

/-- Invariant of the step-merge fold: the original task survives (as long as
no step output carries an `original_task` field) and the history buffer is
the capped list of all outputs so far, in insertion order. -/
theorem foldl_merge_inv (prompt : String) :
    ∀ (vs : List JsonValue) (st : StateObj) (hist : List JsonValue),
      st.lookup "original_task" = some (.str prompt) →
      st.lookup "history" = some (.arr hist) →
      hist.length ≤ 5 →
      (∀ v ∈ vs, ¬objHasKey "original_task" v) →
      (vs.foldl mergeStep st).lookup "original_task" = some (.str prompt) ∧
      (vs.foldl mergeStep st).lookup "history" = some (.arr (lastN 5 (hist ++ vs))) := by
  intro vs
  induction vs with
  | nil =>
      intro st hist h1 h2 hlen _
      refine ⟨h1, ?_⟩
      simpa [lastN_of_length_le hlen] using h2
  | cons v vs ih =>
      intro st hist h1 h2 hlen hv
      simp only [List.foldl_cons]
      have hh := mergeStep_history st v hist h2
      have ho : (mergeStep st v).lookup "original_task" = some (.str prompt) := by
        rw [mergeStep_other st v "original_task" (by decide) (by decide)
          (hv v (List.mem_cons_self _ _))]
        exact h1
      have h := ih (mergeStep st v) (lastN 5 (hist ++ [v])) ho hh
        (lastN_length_le 5 _) (fun w hw => hv w (List.mem_cons_of_mem _ hw))
      refine ⟨h.1, ?_⟩
      rw [h.2, lastN_append_lastN]
      rw [List.append_assoc]
      rfl

/-- C9 (amended): after every successful step merge, the orchestrator's state
still maps `original_task` to the original task text — provided no step
output object itself carries an `original_task` field, since the merge
spreads output fields over the state — and maps `history` to exactly the 5
most recent step outputs (all of them while there are fewer than 5), oldest
evicted first, insertion order preserved. -/
theorem c9_state_invariant (prompt : String) (vs : List JsonValue)
    (hv : ∀ v ∈ vs, ¬objHasKey "original_task" v) :
    (vs.foldl mergeStep (initialState prompt)).lookup "original_task" =
      some (.str prompt) ∧
    (vs.foldl mergeStep (initialState prompt)).lookup "history" =
      some (.arr (lastN 5 vs)) := by
  have h := foldl_merge_inv prompt vs (initialState prompt) [] rfl rfl (by simp) hv
  simpa using h

/-- C9 witness: six step outputs keep the original task and leave exactly the
5 most recent outputs in the history buffer, in order. -/
theorem c9_state_invariant_witness :
    ([JsonValue.num 1, .num 2, .num 3, .num 4, .num 5, .num 6].foldl mergeStep
        (initialState "orig")).lookup "original_task" = some (.str "orig") ∧
    ([JsonValue.num 1, .num 2, .num 3, .num 4, .num 5, .num 6].foldl mergeStep
        (initialState "orig")).lookup "history" =
      some (.arr (lastN 5 [JsonValue.num 1, .num 2, .num 3, .num 4, .num 5, .num 6])) := by
  apply c9_state_invariant "orig"
  intro v hv
  rcases List.mem_cons.mp hv with rfl | hv
  · decide
  rcases List.mem_cons.mp hv with rfl | hv
  · decide
  rcases List.mem_cons.mp hv with rfl | hv
  · decide
  rcases List.mem_cons.mp hv with rfl | hv
  · decide
  rcases List.mem_cons.mp hv with rfl | hv
  · decide
  rcases List.mem_cons.mp hv with rfl | hv
  · decide
  · simp at hv

/-- C9 counterexample to the claim as stated: a step output object carrying
an `original_task` field does overwrite the original task text in the state,
because the merge spreads the output's fields over the state and only the
`history` field is re-written afterwards. -/
theorem c9_state_invariant_cex :
    (([JsonValue.obj [("original_task", .str "evil")]].foldl mergeStep
        (initialState "orig")).lookup "original_task" = some (.str "evil")) ∧
    (([JsonValue.obj [("original_task", .str "evil")]].foldl mergeStep
        (initialState "orig")).lookup "original_task" ≠ some (.str "orig")) := by
  refine ⟨rfl, ?_⟩
  intro h
  rw [show ([JsonValue.obj [("original_task", .str "evil")]].foldl mergeStep
      (initialState "orig")).lookup "original_task" = some (.str "evil") from rfl] at h
  injection h with h
  injection h with h
  exact absurd h (by decide)

/-- C10: the state's `history` field is always the orchestrator-maintained
buffer — when a step's winning value is a mapping that itself contains a
`history` key, that key is discarded by the merge, because the updated buffer
is written after spreading the value; every other field of the value behaves
exactly as the spread dictates. -/
theorem c10_history_protected (state : StateObj) (fs : List (String × JsonValue))
    (hist : List JsonValue)
    (hh : state.lookup "history" = some (.arr hist))
    (_hmem : "history" ∈ fs.map Prod.fst) :
    ((mergeStep state (.obj fs)).lookup "history" =
      some (.arr (lastN 5 (hist ++ [JsonValue.obj fs])))) ∧
    (∀ key w, key ≠ "history" →
      (objMergeFields state fs).lookup key = some w →
      (mergeStep state (.obj fs)).lookup key = some w) := by
  refine ⟨mergeStep_history state (.obj fs) hist hh, ?_⟩
  intro key w hk hw
  simp only [mergeStep, hh]
  rw [objSet_lookup_other _ _ _ _ hk]
  exact hw

/-- C10 witness: a worker output `\x7bhistory: "HACK", y: 7\x7d` cannot replace
the history buffer, while its other field `y` lands in the state. -/
theorem c10_history_protected_witness :
    ((mergeStep (initialState "t")
        (.obj [("history", .str "HACK"), ("y", .num 7)])).lookup "history" =
      some (.arr (lastN 5 ([] ++ [JsonValue.obj [("history", .str "HACK"), ("y", .num 7)]])))) ∧
    ((mergeStep (initialState "t")
        (.obj [("history", .str "HACK"), ("y", .num 7)])).lookup "y" = some (.num 7)) := by
  have h := c10_history_protected (initialState "t")
    [("history", .str "HACK"), ("y", .num 7)] [] rfl (by decide)
  exact ⟨h.1, h.2 "y" (.num 7) (by decide) rfl⟩

/-! ### Rate limiter invariants -/

/-- Filtering a sorted list by an upward-closed predicate keeps a suffix. -/
theorem sorted_filter_suffix (p : Nat → Bool)
    (hmono : ∀ a b : Nat, a ≤ b → p a = true → p b = true) :
    ∀ ts : List Nat, List.Pairwise (· ≤ ·) ts →
      ∃ a, ts = a ++ ts.filter p ∧ ∀ t ∈ a, p t = false := by
  intro ts
  induction ts with
  | nil => exact fun _ => ⟨[], rfl, by simp⟩
  | cons x ts ih =>
      intro hs
      rw [List.pairwise_cons] at hs
      cases hp : p x with
      | true =>
          have hall : ∀ t ∈ ts, p t = true := fun t ht => hmono x t (hs.1 t ht) hp
          refine ⟨[], ?_, by simp⟩
          simp [List.filter_cons, hp, List.filter_eq_self.mpr hall]
      | false =>
          obtain ⟨a, ha1, ha2⟩ := ih hs.2
          refine ⟨x :: a, ?_, ?_⟩
          · have hfc : (x :: ts).filter p = ts.filter p := by
              simp [List.filter_cons, hp]
            rw [hfc, List.cons_append]
            exact congrArg (x :: ·) ha1
          · intro t ht
            rcases List.mem_cons.mp ht with rfl | ht
            · exact hp
            · exact ha2 t ht

theorem rlInv_init (m start : Nat) : rlInv m (rlInit m start) := by
  refine ⟨rfl, ⟨[], rfl, by simp⟩, List.Pairwise.nil, by simp [rlInit], ?_, rfl⟩
  intro t0
  show (([] : List Nat).filter _).length ≤ m
  simp

/-- The admission branch of one `processQueue` iteration: under capacity, the
head task is released at the current clock time, with no change to the clock
(no sleep). -/
theorem driveStep_release (s : RLState) (id : Nat) (rest : List Nat)
    (hq : s.queue = id :: rest)
    (hcap : (pruneWindow s.now s.requestTimestamps).length < s.maxRpm) :
    driveStep s =
      { s with
          queue := rest,
          requestTimestamps := pruneWindow s.now s.requestTimestamps ++ [s.now],
          released := s.released ++ [(id, s.now)] } := by
  simp only [driveStep, hq, if_pos hcap]

theorem rlInv_drive (m : Nat) (s : RLState) (h : rlInv m s) : rlInv m (driveStep s) := by
  obtain ⟨hm, ⟨dropped, hdrop, hdropOld⟩, hsort, hle, hwin, hfifo⟩ := h
  rcases hq : s.queue with _ | ⟨id, rest⟩
  · simp only [driveStep, hq]
    exact ⟨hm, ⟨dropped, hdrop, hdropOld⟩, hsort, hle, hwin, hfifo⟩
  · have hmono : ∀ a b : Nat, a ≤ b →
        decide (s.now - a < 60000) = true → decide (s.now - b < 60000) = true := by
      intro a b hab ha
      simp only [decide_eq_true_eq] at ha ⊢
      omega
    obtain ⟨aged, hsplitTs, hagedF⟩ :=
      sorted_filter_suffix (fun t => decide (s.now - t < 60000)) hmono
        s.requestTimestamps hsort
    have hsplit : s.requestTimestamps = aged ++ pruneWindow s.now s.requestTimestamps :=
      hsplitTs
    have hagedOld : ∀ t ∈ aged, t + 60000 ≤ s.now := by
      intro t ht
      have := hagedF t ht
      simp only [decide_eq_false_iff_not] at this
      omega
    by_cases hcap : (pruneWindow s.now s.requestTimestamps).length < s.maxRpm
    · rw [driveStep_release s id rest hq hcap]
      have hrel : releasedTimes
          { s with
              queue := rest,
              requestTimestamps := pruneWindow s.now s.requestTimestamps ++ [s.now],
              released := s.released ++ [(id, s.now)] } =
          (dropped ++ aged) ++ (pruneWindow s.now s.requestTimestamps ++ [s.now]) := by
        show (s.released ++ [(id, s.now)]).map Prod.snd = _
        rw [List.map_append]
        have h1 : s.released.map Prod.snd =
            dropped ++ (aged ++ pruneWindow s.now s.requestTimestamps) := by
          rw [← hsplit]
          exact hdrop
        rw [h1]
        simp [List.append_assoc]
      refine ⟨hm, ⟨dropped ++ aged, ?_, ?_⟩, ?_, ?_, ?_, ?_⟩
      · exact hrel
      · intro t ht
        rcases List.mem_append.mp ht with ht | ht
        · exact hdropOld t ht
        · exact hagedOld t ht
      · show List.Pairwise (· ≤ ·) (pruneWindow s.now s.requestTimestamps ++ [s.now])
        rw [List.pairwise_append]
        refine ⟨List.Pairwise.filter _ hsort, by simp, ?_⟩
        intro x hx b hb
        obtain rfl := List.mem_singleton.mp hb
        exact hle x (List.mem_filter.mp hx).1
      · intro t ht
        rcases List.mem_append.mp ht with ht | ht
        · exact hle t (List.mem_filter.mp ht).1
        · obtain rfl := List.mem_singleton.mp ht
          exact Nat.le_refl _
      · intro t0
        have hold : windowCount t0 (releasedTimes s) =
            ((dropped ++ aged).filter fun x => decide (t0 ≤ x ∧ x < t0 + 60000)).length +
              ((pruneWindow s.now s.requestTimestamps).filter
                fun x => decide (t0 ≤ x ∧ x < t0 + 60000)).length := by
          simp only [windowCount]
          rw [hdrop]
          conv_lhs => rw [hsplit]
          simp [List.filter_append, Nat.add_assoc]
        have hnew : windowCount t0 (releasedTimes
            { s with
                queue := rest,
                requestTimestamps := pruneWindow s.now s.requestTimestamps ++ [s.now],
                released := s.released ++ [(id, s.now)] }) =
            ((dropped ++ aged).filter fun x => decide (t0 ≤ x ∧ x < t0 + 60000)).length +
              (((pruneWindow s.now s.requestTimestamps).filter
                  fun x => decide (t0 ≤ x ∧ x < t0 + 60000)).length +
                ([s.now].filter fun x => decide (t0 ≤ x ∧ x < t0 + 60000)).length) := by
          simp only [windowCount]
          rw [hrel]
          simp [List.filter_append, Nat.add_assoc]
        rw [hnew]
        by_cases hnow : t0 ≤ s.now ∧ s.now < t0 + 60000
        · have hdz : (dropped ++ aged).filter
              (fun x => decide (t0 ≤ x ∧ x < t0 + 60000)) = [] := by
            rw [List.filter_eq_nil_iff]
            intro x hx
            have hxo : x + 60000 ≤ s.now := by
              rcases List.mem_append.mp hx with hx | hx
              · exact hdropOld x hx
              · exact hagedOld x hx
            simp only [decide_eq_true_eq]
            omega
          have hone : ([s.now].filter fun x => decide (t0 ≤ x ∧ x < t0 + 60000)) =
              [s.now] := by
            simp [hnow.1, hnow.2]
          rw [hdz, hone]
          have hfl := List.length_filter_le (fun x => decide (t0 ≤ x ∧ x < t0 + 60000))
            (pruneWindow s.now s.requestTimestamps)
          simp only [List.length_nil, List.length_cons]
          omega
        · have hzero : ([s.now].filter fun x => decide (t0 ≤ x ∧ x < t0 + 60000)) =
              [] := by
            rw [List.filter_eq_nil_iff]
            intro x hx
            obtain rfl := List.mem_singleton.mp hx
            simpa using hnow
          rw [hzero]
          simp only [List.length_nil, Nat.add_zero]
          rw [← hold]
          exact hwin t0
      · show (s.released ++ [(id, s.now)]).map Prod.fst ++ rest = s.submitted
        rw [List.map_append, ← hfifo, hq]
        simp
    · have hds : driveStep s =
          { s with
              requestTimestamps := pruneWindow s.now s.requestTimestamps,
              now := s.now + (60000 -
                (s.now - (pruneWindow s.now s.requestTimestamps).headD 0) + 100) } := by
        simp only [driveStep, hq, if_neg hcap]
      rw [hds]
      refine ⟨hm, ⟨dropped ++ aged, ?_, ?_⟩, ?_, ?_, ?_, ?_⟩
      · show releasedTimes s = (dropped ++ aged) ++ pruneWindow s.now s.requestTimestamps
        rw [hdrop]
        conv_lhs => rw [hsplit]
        simp [List.append_assoc]
      · intro t ht
        have hb : t + 60000 ≤ s.now := by
          rcases List.mem_append.mp ht with ht | ht
          · exact hdropOld t ht
          · exact hagedOld t ht
        exact le_trans hb (Nat.le_add_right _ _)
      · exact List.Pairwise.filter _ hsort
      · intro t ht
        exact le_trans (hle t (List.mem_filter.mp ht).1) (Nat.le_add_right _ _)
      · exact hwin
      · exact hfifo

theorem rlInv_step (m : Nat) (s : RLState) (e : RLEvent) (h : rlInv m s) :
    rlInv m (rlStep s e) := by
  cases e with
  | submit id =>
      obtain ⟨hm, hhist, hsort, hle, hwin, hfifo⟩ := h
      refine ⟨hm, hhist, hsort, hle, hwin, ?_⟩
      show s.released.map Prod.fst ++ (s.queue ++ [id]) = s.submitted ++ [id]
      rw [← hfifo, List.append_assoc]
  | advance d =>
      obtain ⟨hm, ⟨dropped, hd1, hd2⟩, hsort, hle, hwin, hfifo⟩ := h
      exact ⟨hm,
        ⟨dropped, hd1, fun t ht => le_trans (hd2 t ht) (Nat.le_add_right _ _)⟩,
        hsort, fun t ht => le_trans (hle t ht) (Nat.le_add_right _ _), hwin, hfifo⟩
  | drive => exact rlInv_drive m s h

theorem rlInv_run (m : Nat) : ∀ (evs : List RLEvent) (s : RLState), rlInv m s →
    rlInv m (evs.foldl rlStep s) := by
  intro evs
  induction evs with
  | nil => exact fun s h => h
  | cons e evs ih => exact fun s h => ih _ (rlInv_step m s e h)

/-- C5: in every reachable state of the rate limiter — any schedule of
`throttle` submissions, clock advances, and `processQueue` iterations — (1)
at most `maxRpm` admission timestamps fall inside any rolling 60-second
window, (2) tasks are released in FIFO submission order (the released ids
followed by the still-queued ids are exactly the submissions, in order), and
(3) whenever the pruned window is under capacity, a coordinator iteration
admits the head task immediately at the current clock time, without any
sleep. -/
theorem c5_admission_controller (maxR start : Nat) (evs : List RLEvent) :
    (∀ t0, windowCount t0 (releasedTimes (rlRun maxR start evs)) ≤ maxR) ∧
    ((rlRun maxR start evs).released.map Prod.fst ++ (rlRun maxR start evs).queue =
      (rlRun maxR start evs).submitted) ∧
    (∀ id rest, (rlRun maxR start evs).queue = id :: rest →
      (pruneWindow (rlRun maxR start evs).now
          (rlRun maxR start evs).requestTimestamps).length <
        (rlRun maxR start evs).maxRpm →
      rlStep (rlRun maxR start evs) .drive =
        { rlRun maxR start evs with
            queue := rest,
            requestTimestamps :=
              pruneWindow (rlRun maxR start evs).now
                  (rlRun maxR start evs).requestTimestamps ++
                [(rlRun maxR start evs).now],
            released :=
              (rlRun maxR start evs).released ++
                [(id, (rlRun maxR start evs).now)] }) := by
  have h := rlInv_run maxR evs (rlInit maxR start) (rlInv_init maxR start)
  exact ⟨h.2.2.2.2.1, h.2.2.2.2.2,
    fun id rest hq hcap => driveStep_release (rlRun maxR start evs) id rest hq hcap⟩

/-- C5 witness: with `maxRpm = 1`, two submissions and two coordinator
iterations admit the first task at time 0; the second iteration must sleep;
after the induced clock advance the window is empty again, and the pending
task is admitted at the new clock time without further delay. -/
theorem c5_admission_controller_witness :
    (windowCount 0 (releasedTimes
        (rlRun 1 0 [.submit 7, .submit 8, .drive, .drive])) ≤ 1) ∧
    ((rlRun 1 0 [.submit 7, .submit 8, .drive, .drive]).released.map Prod.fst ++
        (rlRun 1 0 [.submit 7, .submit 8, .drive, .drive]).queue =
      (rlRun 1 0 [.submit 7, .submit 8, .drive, .drive]).submitted) ∧
    rlStep (rlRun 1 0 [.submit 7, .submit 8, .drive, .drive]) .drive =
      ⟨1, [], [60100], 60100, [(7, 0), (8, 60100)], [7, 8]⟩ := by
  have h := c5_admission_controller 1 0 [.submit 7, .submit 8, .drive, .drive]
  refine ⟨h.1 0, h.2.1, ?_⟩
  rw [h.2.2 8 [] (by decide) (by decide)]
  decide

end MakerCli
